import Mathlib

set_option maxRecDepth 8000

/-!
Verification of the Portuguese syllabifier and the RR-sound detector.

The program is embedded shallowly: strings are `List Char`, the Python
methods of `PortugueseSyllabifierNLTK` (portuguese_syllabifier_nltk.py) and
`RRSoundDetector` (RR_sounds/rr_sound_separator.py) become Lean functions of
the same names.  Character-level operations (`str.lower`, `re.sub`,
`str.replace`, `str.find`, slicing) are modelled over the character
repertoire the program manipulates: ASCII plus the accented Portuguese
letters appearing in its tables.
-/

/-- Lowercase repertoire: ASCII letters plus the accented vowels and the
cedilla used by the source tables. -/
def lowercaseLetters : List Char := ("abcdefghijklmnopqrstuvwxyzáâãàéêèíîìóôõòúûùç").data

/-- Uppercase repertoire, aligned index-by-index with `lowercaseLetters`. -/
def uppercaseLetters : List Char := ("ABCDEFGHIJKLMNOPQRSTUVWXYZÁÂÃÀÉÊÈÍÎÌÓÔÕÒÚÛÙÇ").data

/-- Pairs (uppercase, lowercase) for the repertoire. -/
def caseTable : List (Char × Char) := uppercaseLetters.zip lowercaseLetters

/-- `str.lower` on one character (identity outside the repertoire). -/
def charLower (c : Char) : Char :=
  match caseTable.lookup c with
  | some l => l
  | none => c

/-- `str.upper`/titlecase on one character (identity outside the repertoire). -/
def charUpper (c : Char) : Char :=
  match (caseTable.map (fun p => (p.2, p.1))).lookup c with
  | some u => u
  | none => c

/-- `str.lower` on a word. -/
def lowerL (w : List Char) : List Char := w.map charLower

/-- Diacritic removal (used only to state the spec's
"diacritic-insensitively" wording, not by the code). -/
def accentTable : List (Char × Char) :=
  [('á','a'), ('â','a'), ('ã','a'), ('à','a'),
   ('é','e'), ('ê','e'), ('è','e'),
   ('í','i'), ('î','i'), ('ì','i'),
   ('ó','o'), ('ô','o'), ('õ','o'), ('ò','o'),
   ('ú','u'), ('û','u'), ('ù','u'), ('ç','c')]

def deaccentChar (c : Char) : Char :=
  match accentTable.lookup c with
  | some p => p
  | none => c

def deaccent (w : List Char) : List Char := w.map deaccentChar

/-- Python `\w` over the modelled repertoire: letters, digits, underscore. -/
def isWordChar (c : Char) : Bool :=
  decide (c ∈ lowercaseLetters) || decide (c ∈ uppercaseLetters) || c.isDigit || c == '_'

/-- Python `\s` core whitespace. -/
def isSpaceChar (c : Char) : Bool :=
  c == ' ' || c == '\t' || c == '\n' || c == '\r'

/-- A letter of the modelled repertoire (either case). -/
def isLetterChar (c : Char) : Bool :=
  decide (c ∈ lowercaseLetters) || decide (c ∈ uppercaseLetters)

def isUpperChar (c : Char) : Bool := decide (c ∈ uppercaseLetters)

def isLowerChar (c : Char) : Bool := decide (c ∈ lowercaseLetters)

/-- Python slicing `w[a:b]` for 0 ≤ a ≤ b. -/
def sliceL (w : List Char) (a b : Nat) : List Char := (w.drop a).take (b - a)

/-- Concatenation of a syllable list. -/
def joinL : List (List Char) → List Char
  | [] => []
  | s :: ss => s ++ joinL ss

/-- Internal boundary offsets of a syllable list (cumulative lengths of all
proper nonempty prefixes), counted from `start`. -/
def innerOffsets (start : Nat) : List (List Char) → List Nat
  | [] => []
  | [_] => []
  | s :: ss => (start + s.length) :: innerOffsets (start + s.length) ss

/-- Insert into a strictly sorted list, dropping duplicates. -/
def insD (x : Nat) : List Nat → List Nat
  | [] => [x]
  | y :: ys => if x < y then x :: y :: ys else if x = y then y :: ys else y :: insD x ys

/-- Python `sorted(list(set(points)))`: ascending distinct values. -/
def dedupSort (l : List Nat) : List Nat := l.foldr insD []

/-- Insert into a sorted list (duplicates kept). -/
def insN (x : Nat) : List Nat → List Nat
  | [] => [x]
  | y :: ys => if x ≤ y then x :: y :: ys else y :: insN x ys

/-- Python `sorted(points)`. -/
def sortNat (l : List Nat) : List Nat := l.foldr insN []

/-- Python `max` on a nonempty list (0 on empty, never used there). -/
def maxList : List Nat → Nat
  | [] => 0
  | x :: xs => xs.foldl Nat.max x

/-- `re.split(r'[-]', word)`: split on hyphens, keeping empty parts. -/
def splitOnHyphen : List Char → List (List Char)
  | [] => [[]]
  | c :: rest =>
    if c = '-' then [] :: splitOnHyphen rest
    else
      match splitOnHyphen rest with
      | [] => [[c]]
      | p :: ps => (c :: p) :: ps

/-- Does `pat` occur at the head of `s`? -/
def leadMatch : List Char → List Char → Bool
  | [], _ => true
  | _ :: _, [] => false
  | p :: ps, c :: cs => p == c && leadMatch ps cs

/-- Python `str.replace(pat, rep)`: leftmost, non-overlapping, scanning
resumes after the replacement.  The `fuel` argument only makes the
recursion structural; each step consumes at least one character, so with
`fuel` at least the length of the list (as `replaceSeq` passes it) the
`0, l` arm is never reached on a nonempty list. -/
def replAux (pat rep : List Char) : Nat → List Char → List Char
  | _, [] => []
  | 0, l => l
  | fuel + 1, c :: rest =>
    if !pat.isEmpty && leadMatch pat (c :: rest) then
      rep ++ replAux pat rep fuel ((c :: rest).drop pat.length)
    else
      c :: replAux pat rep fuel rest

def replaceSeq (pat rep : List Char) (l : List Char) : List Char :=
  replAux pat rep l.length l

/-- Python `str.find(sub, start)`: least index `i ≥ start` where `sub`
occurs, `none` for Python's `-1`. -/
def strFind (s sub : List Char) (start : Nat) : Option Nat :=
  (List.range (s.length + 1)).find? (fun i => decide (start ≤ i) && leadMatch sub (s.drop i))

/-- Python `sub in s` (substring containment). -/
def containsSeq (s sub : List Char) : Bool :=
  (List.range (s.length + 1)).any (fun i => leadMatch sub (s.drop i))

namespace PortugueseSyllabifierNLTK

/-- `self.vowels`. -/
def vowels : List Char := ("aeiouáâãàéêèíîìóôõòúûù").data

/-- `self.diphthongs`. -/
def diphthongs : List (List Char) :=
  [("ai").data, ("au").data, ("ei").data, ("eu").data,
   ("oi").data, ("ou").data, ("ui").data, ("iu").data]

/-- `self.imperfect_clusters`. -/
def imperfect_clusters : List (List Char) :=
  [("br").data, ("bl").data, ("cr").data, ("cl").data, ("dr").data, ("dl").data,
   ("fr").data, ("fl").data, ("gr").data, ("gl").data, ("pr").data, ("pl").data,
   ("tr").data, ("tl").data, ("vr").data, ("vl").data]

/-- `self.digraphs`. -/
def digraphs : List (List Char) :=
  [("nh").data, ("lh").data, ("ch").data, ("gu").data, ("qu").data]

/-- `self.separable_digraphs`. -/
def separable_digraphs : List (List Char) :=
  [("ss").data, ("rr").data, ("sc").data, ("xc").data, ("xs").data]

/-- `self.perfect_clusters`. -/
def perfect_clusters : List (List Char) :=
  [("st").data, ("sp").data, ("sc").data, ("sm").data, ("sn").data, ("sl").data, ("sr").data,
   ("pt").data, ("pc").data, ("pm").data, ("pn").data, ("pl").data, ("pr").data,
   ("ct").data, ("cp").data, ("cm").data, ("cn").data, ("cl").data, ("cr").data,
   ("mt").data, ("mp").data, ("mc").data, ("mn").data, ("ml").data, ("mr").data,
   ("nt").data, ("np").data, ("nc").data, ("nm").data, ("nl").data, ("nr").data]

/-- `self.complex_clusters`. -/
def complex_clusters : List (List Char) :=
  [("str").data, ("spr").data, ("scr").data, ("spl").data]

/-- `self.special_patterns`: the exception lexicon, key → stored syllables. -/
def special_patterns : List (List Char × List (List Char)) :=
  [(("otorrinolaringologista").data,
    [("o").data, ("tor").data, ("ri").data, ("no").data, ("la").data, ("rin").data, ("go").data, ("lo").data, ("gis").data, ("ta").data]),
   (("pneumoultramicroscopicossilicovulcanoconiótico").data,
    [("pneu").data, ("moul").data, ("tra").data, ("mi").data, ("cros").data, ("co").data, ("pi").data, ("co").data, ("ssi").data, ("li").data, ("co").data, ("vul").data, ("ca").data, ("no").data, ("co").data, ("ni").data, ("ó").data, ("ti").data, ("co").data]),
   (("gastroenterologista").data,
    [("gas").data, ("tro").data, ("en").data, ("te").data, ("ro").data, ("lo").data, ("gis").data, ("ta").data]),
   (("cardiologista").data,
    [("car").data, ("di").data, ("o").data, ("lo").data, ("gis").data, ("ta").data]),
   (("neurologista").data,
    [("neu").data, ("ro").data, ("lo").data, ("gis").data, ("ta").data]),
   (("dermatologista").data,
    [("der").data, ("ma").data, ("to").data, ("lo").data, ("gis").data, ("ta").data]),
   (("oftalmologista").data,
    [("of").data, ("tal").data, ("mo").data, ("lo").data, ("gis").data, ("ta").data]),
   (("ortopedista").data,
    [("or").data, ("to").data, ("pe").data, ("dis").data, ("ta").data]),
   (("urologista").data,
    [("u").data, ("ro").data, ("lo").data, ("gis").data, ("ta").data]),
   (("idéia").data,
    [("i").data, ("déi").data, ("a").data]),
   (("d'água").data,
    [("d'").data, ("á").data, ("gua").data]),
   (("n'água").data,
    [("n'").data, ("á").data, ("gua").data]),
   (("springy").data,
    [("sprin").data, ("gy").data]),
   (("scrawls").data,
    [("scrawls").data]),
   (("anticonstitucionalissimamente").data,
    [("an").data, ("ti").data, ("cons").data, ("ti").data, ("tu").data, ("ci").data, ("o").data, ("na").data, ("lis").data, ("si").data, ("ma").data, ("men").data, ("te").data]),
   (("psiquiatra").data,
    [("psi").data, ("qui").data, ("a").data, ("tra").data]),
   (("estrela").data,
    [("es").data, ("tre").data, ("la").data]),
   (("transporte").data,
    [("trans").data, ("por").data, ("te").data]),
   (("reconstruir").data,
    [("re").data, ("cons").data, ("tru").data, ("ir").data]),
   (("cooperar").data,
    [("co").data, ("o").data, ("pe").data, ("rar").data]),
   (("coordenar").data,
    [("co").data, ("or").data, ("de").data, ("nar").data]),
   (("coordenacao").data,
    [("co").data, ("or").data, ("de").data, ("na").data, ("cao").data]),
   (("coordenador").data,
    [("co").data, ("or").data, ("de").data, ("na").data, ("dor").data]),
   (("coordenadora").data,
    [("co").data, ("or").data, ("de").data, ("na").data, ("do").data, ("ra").data]),
   (("coordenadamente").data,
    [("co").data, ("or").data, ("de").data, ("na").data, ("da").data, ("men").data, ("te").data]),
   (("aquarela").data,
    [("a").data, ("qua").data, ("re").data, ("la").data]),
   (("aquarelista").data,
    [("a").data, ("qua").data, ("re").data, ("lis").data, ("ta").data]),
   (("aquario").data,
    [("a").data, ("qua").data, ("ri").data, ("o").data]),
   (("aquatico").data,
    [("a").data, ("qua").data, ("ti").data, ("co").data]),
   (("aquecer").data,
    [("a").data, ("que").data, ("cer").data]),
   (("aquecimento").data,
    [("a").data, ("que").data, ("ci").data, ("men").data, ("to").data]),
   (("aqueduto").data,
    [("a").data, ("que").data, ("du").data, ("to").data]),
   (("aquela").data,
    [("a").data, ("que").data, ("la").data]),
   (("aquele").data,
    [("a").data, ("que").data, ("le").data]),
   (("aquem").data,
    [("a").data, ("quem").data]),
   (("aqui").data,
    [("a").data, ("qui").data]),
   (("aquiescencia").data,
    [("a").data, ("qui").data, ("es").data, ("cen").data, ("ci").data, ("a").data]),
   (("aquiescer").data,
    [("a").data, ("qui").data, ("es").data, ("cer").data]),
   (("aquietar").data,
    [("a").data, ("qui").data, ("e").data, ("tar").data]),
   (("aquilatacao").data,
    [("a").data, ("qui").data, ("la").data, ("ta").data, ("cao").data]),
   (("aquilatar").data,
    [("a").data, ("qui").data, ("la").data, ("tar").data]),
   (("aquilino").data,
    [("a").data, ("qui").data, ("li").data, ("no").data]),
   (("aquilo").data,
    [("a").data, ("qui").data, ("lo").data]),
   (("aquinhoar").data,
    [("a").data, ("qui").data, ("nho").data, ("ar").data]),
   (("aquisicao").data,
    [("a").data, ("qui").data, ("si").data, ("cao").data]),
   (("aquisitivo").data,
    [("a").data, ("qui").data, ("si").data, ("ti").data, ("vo").data]),
   (("aquoso").data,
    [("a").data, ("quo").data, ("so").data]),
   (("guerrilha").data,
    [("guer").data, ("ri").data, ("lha").data]),
   (("guerrilheiro").data,
    [("guer").data, ("ri").data, ("lhei").data, ("ro").data]),
   (("guerrilheira").data,
    [("guer").data, ("ri").data, ("lhei").data, ("ra").data]),
   (("guerrilheirismo").data,
    [("guer").data, ("ri").data, ("lhei").data, ("ris").data, ("mo").data])]

/-- `is_vowel`: membership of the lowercased character in `vowels`. -/
def is_vowel (c : Char) : Bool := decide (charLower c ∈ vowels)

/-- The combining tilde U+0303 inserted by the digraph-protection marking. -/
def markChar : Char := '̃'

/-- ASCII consonant class `[bcdfghjklmnpqrstvwxyz]` of the lookahead. -/
def asciiConsonants : List Char := ("bcdfghjklmnpqrstvwxyz").data

/-- Lookahead `(?=[bcdfghjklmnpqrstvwxyz]|$)` (case-insensitive). -/
def guLookahead : List Char → Bool
  | [] => true
  | d :: _ => decide (charLower d ∈ asciiConsonants)

/-- `re.sub(r'gu([ei])(?=[bcdfghjklmnpqrstvwxyz]|$)', r'g̃u\1', word, IGNORECASE)`. -/
def subGU : List Char → List Char
  | c0 :: c1 :: c2 :: rest =>
    if charLower c0 = 'g' ∧ charLower c1 = 'u' ∧ (charLower c2 = 'e' ∨ charLower c2 = 'i') ∧
        guLookahead rest = true then
      'g' :: markChar :: 'u' :: c2 :: subGU rest
    else
      c0 :: subGU (c1 :: c2 :: rest)
  | l => l

/-- `re.sub(r'qu([ei])(?=[bcdfghjklmnpqrstvwxyz]|$)', r'q̃u\1', word, IGNORECASE)`. -/
def subQU : List Char → List Char
  | c0 :: c1 :: c2 :: rest =>
    if charLower c0 = 'q' ∧ charLower c1 = 'u' ∧ (charLower c2 = 'e' ∨ charLower c2 = 'i') ∧
        guLookahead rest = true then
      'q' :: markChar :: 'u' :: c2 :: subQU rest
    else
      c0 :: subQU (c1 :: c2 :: rest)
  | l => l

/-- `preprocess_gq_digraphs`: both substitutions, in source order. -/
def preprocess_gq_digraphs (word : List Char) : List Char := subQU (subGU word)

/-- `postprocess_gq_digraphs`: per syllable, `.replace('g̃','g').replace('q̃','q')`. -/
def postprocess_gq_digraphs (syllables : List (List Char)) : List (List Char) :=
  syllables.map (fun s => replaceSeq ['q', markChar] ['q'] (replaceSeq ['g', markChar] ['g'] s))

/-- Positions of vowels, ascending (the `enumerate` scan of step 2). -/
def vowelPositions (w : List Char) : List Nat :=
  (List.range w.length).filter (fun i => is_vowel (w.getD i ' '))

/-- `range(1, len, 2)`: the odd indices below `n`. -/
def oddIndicesBelow (n : Nat) : List Nat :=
  (List.range n).filter (fun i => i % 2 = 1)

/-- `distribute_consonants`. -/
def distribute_consonants (consonants : List Char) (start_pos : Nat) : List Nat :=
  if consonants.length = 2 then
    if markChar ∈ consonants then [start_pos]
    else if lowerL consonants ∈ separable_digraphs then [start_pos + 1]
    else if lowerL consonants ∈ imperfect_clusters then [start_pos]
    else if lowerL consonants ∈ digraphs then [start_pos]
    else if lowerL consonants ∈ perfect_clusters then [start_pos + 1]
    else [start_pos + 1]
  else if consonants.length = 3 then
    if lowerL consonants ∈ complex_clusters then
      if lowerL consonants = ("str").data then [start_pos + 1]
      else if lowerL consonants = ("scr").data then [start_pos + 1]
      else [start_pos + 2]
    else [start_pos + 1]
  else if 3 < consonants.length then
    (oddIndicesBelow consonants.length).map (fun i => start_pos + i)
  else []

/-- Points contributed by one consecutive vowel pair (body of the
`for i in range(len(vowel_positions) - 1)` loop). -/
def pairPoints (w : List Char) (cv nv : Nat) : List Nat :=
  if nv = cv + 1 ∧ lowerL (sliceL w cv (nv + 1)) ∈ diphthongs then []
  else
    let consonants_between := sliceL w (cv + 1) nv
    if consonants_between.length = 0 then [cv + 1]
    else if consonants_between.length = 1 then [cv + 1]
    else distribute_consonants consonants_between (cv + 1)

/-- The loop over consecutive vowel-position pairs. -/
def pairsLoop (w : List Char) : List Nat → List Nat
  | cv :: nv :: rest => pairPoints w cv nv ++ pairsLoop w (nv :: rest)
  | _ => []

/-- `handle_final_consonants`. -/
def handle_final_consonants (w : List Char) (points : List Nat) (vps : List Nat) : List Nat :=
  match vps with
  | [] => points
  | v :: vs =>
    let last_vowel := maxList (v :: vs)
    let points2 :=
      if last_vowel < w.length - 1 then
        let final_consonants := w.drop (last_vowel + 1)
        if final_consonants.length = 1 then points
        else if final_consonants.length = 2 then
          if lowerL final_consonants ∈ imperfect_clusters ∨ lowerL final_consonants ∈ digraphs then
            points
          else points ++ [w.length - 1]
        else points ++ [w.length - 1]
      else points
    dedupSort points2

/-- The slicing loop of `build_syllables_from_points`. -/
def buildLoop (w : List Char) : List Nat → Nat → List (List Char)
  | [], start => if start < w.length then [sliceL w start w.length] else []
  | p :: ps, start =>
    if start < p ∧ p < w.length then sliceL w start p :: buildLoop w ps p
    else buildLoop w ps start

/-- `build_syllables_from_points`. -/
def build_syllables_from_points (w : List Char) (points : List Nat) : List (List Char) :=
  if points = [] then [w]
  else (buildLoop w (sortNat points) 0).filter (fun s => !s.isEmpty)

/-- `apply_syllabification_rules`. -/
def apply_syllabification_rules (word : List Char) : List (List Char) :=
  if word.length ≤ 2 then [word]
  else
    let w := preprocess_gq_digraphs word
    let vps := vowelPositions w
    if vps.length ≤ 1 then [w]
    else
      let pts := pairsLoop w vps
      let pts2 := handle_final_consonants w pts vps
      let syls := build_syllables_from_points w pts2
      postprocess_gq_digraphs syls

/-- Result of `get_case_type`. -/
inductive CaseKind
  | upper
  | title
  | lower
deriving DecidableEq

/-- A cased character (Python `str.isupper`/`istitle` look only at these). -/
def isCasedChar (c : Char) : Bool := isUpperChar c || isLowerChar c

/-- Python `str.isupper`. -/
def isupperB (w : List Char) : Bool :=
  w.any isCasedChar && w.all (fun c => !isCasedChar c || isUpperChar c)

/-- Scanner of Python `str.istitle`: uppercase only after uncased,
lowercase only after cased. -/
def istitleLoop : Bool → List Char → Bool
  | _, [] => true
  | prevCased, c :: rest =>
    if isUpperChar c then !prevCased && istitleLoop true rest
    else if isLowerChar c then prevCased && istitleLoop true rest
    else istitleLoop false rest

/-- Python `str.istitle`. -/
def istitleB (w : List Char) : Bool := w.any isCasedChar && istitleLoop false w

/-- `get_case_type`. -/
def get_case_type (w : List Char) : CaseKind :=
  if isupperB w then CaseKind.upper
  else if istitleB w then CaseKind.title
  else CaseKind.lower

/-- Python `str.capitalize`: first character uppercased, rest lowercased. -/
def capitalizeL : List Char → List Char
  | [] => []
  | c :: rest => charUpper c :: lowerL rest

/-- `restore_case` (pure value; the in-place mutation of the shared stored
list is modelled separately by the stateful variants below). -/
def restore_case (original : List Char) (syllables : List (List Char)) : List (List Char) :=
  if syllables = [] then syllables
  else
    match get_case_type original with
    | CaseKind.upper => syllables
    | CaseKind.title =>
      match syllables with
      | [] => []
      | s :: rest => capitalizeL s :: rest
    | CaseKind.lower => syllables

/-- `handle_cao_words`. -/
def handle_cao_words (word : List Char) : List (List Char) :=
  let word_lower := lowerL word
  if ("cao").data.isSuffixOf word_lower || ("ção").data.isSuffixOf word_lower then
    let ending := word.drop (word.length - 3)
    let base_word := word.take (word.length - 3)
    if base_word.length ≤ 2 then [base_word, ending]
    else apply_syllabification_rules (lowerL base_word) ++ [ending]
  else
    apply_syllabification_rules (lowerL word)

/-- `apply_comprehensive_algorithm`. -/
def apply_comprehensive_algorithm (word : List Char) : List (List Char) :=
  let word_lower := lowerL word
  match special_patterns.lookup word_lower with
  | some syls => restore_case word syls
  | none =>
    if ("cao").data.isSuffixOf word_lower || ("ção").data.isSuffixOf word_lower then
      handle_cao_words word
    else
      restore_case word (apply_syllabification_rules word_lower)

/-- The delimiter element re-inserted between parts: `'-'` if the word has a
hyphen, else `"'"` if it has an apostrophe. -/
def delimEl (word : List Char) : List (List Char) :=
  if '-' ∈ word then [(['-'] : List Char)]
  else if '\'' ∈ word then [(['\''] : List Char)]
  else []

/-- The part loop of `handle_hyphenated_word`: nonempty parts are
syllabified, the delimiter is appended after every part but the last. -/
def hyphenLoop (d : List (List Char)) : List (List Char) → List (List Char)
  | [] => []
  | [p] => if p.isEmpty then [] else apply_comprehensive_algorithm p
  | p :: ps =>
    (if p.isEmpty then [] else apply_comprehensive_algorithm p) ++ d ++ hyphenLoop d ps

/-- `handle_hyphenated_word` (its split pattern `r'[-'']'` is the
character class containing only `-`). -/
def handle_hyphenated_word (word : List Char) : List (List Char) :=
  hyphenLoop (delimEl word) (splitOnHyphen word)

/-- `re.sub(r'[^\w\s]', '', word)`. -/
def stripPunct (w : List Char) : List Char :=
  w.filter (fun c => isWordChar c || isSpaceChar c)

/-- `syllabify`. -/
def syllabify (word : List Char) : List (List Char) :=
  if word.isEmpty || word.length = 1 then [word]
  else if '-' ∈ word ∨ '\'' ∈ word then handle_hyphenated_word word
  else apply_comprehensive_algorithm (stripPunct word)

/-! Stateful variants: the exception table `special_patterns` is the only
mutable state of the Python object.  On an exception hit,
`restore_case(word, self.special_patterns[word_lower])` receives the stored
list itself, so the in-place `syllables[0] = syllables[0].capitalize()`
writes through to the table; we model this by writing the returned list
back into the table (a no-op when `restore_case` leaves it unchanged). -/

/-- The exception table, as mutable state. -/
abbrev Table := List (List Char × List (List Char))

/-- Replace the stored value at a key (first occurrence). -/
def updateTbl (t : Table) (k : List Char) (v : List (List Char)) : Table :=
  match t with
  | [] => []
  | (k', v') :: rest => if k' = k then (k', v) :: rest else (k', v') :: updateTbl rest k v

/-- Stateful `apply_comprehensive_algorithm`. -/
def apply_comprehensive_algorithm_st (t : Table) (word : List Char) :
    List (List Char) × Table :=
  let word_lower := lowerL word
  match t.lookup word_lower with
  | some syls =>
    let r := restore_case word syls
    (r, updateTbl t word_lower r)
  | none =>
    if ("cao").data.isSuffixOf word_lower || ("ção").data.isSuffixOf word_lower then
      (handle_cao_words word, t)
    else
      (restore_case word (apply_syllabification_rules word_lower), t)

/-- Stateful part loop of `handle_hyphenated_word` (the fresh inner
instance's table is threaded across parts and then discarded). -/
def hyphenLoop_st (d : List (List Char)) : Table → List (List Char) → List (List Char) × Table
  | t, [] => ([], t)
  | t, [p] => if p.isEmpty then ([], t) else apply_comprehensive_algorithm_st t p
  | t, p :: ps =>
    let s1 := if p.isEmpty then (([] : List (List Char)), t)
              else apply_comprehensive_algorithm_st t p
    let s2 := hyphenLoop_st d s1.2 ps
    (s1.1 ++ d ++ s2.1, s2.2)

/-- Stateful `handle_hyphenated_word`: a fresh
`PortugueseSyllabifierNLTK()` is constructed, so parts are processed
against a fresh initial table and its mutations are discarded. -/
def handle_hyphenated_word_st (word : List Char) : List (List Char) :=
  (hyphenLoop_st (delimEl word) special_patterns (splitOnHyphen word)).1

/-- Stateful `syllabify`. -/
def syllabify_st (t : Table) (word : List Char) : List (List Char) × Table :=
  if word.isEmpty || word.length = 1 then ([word], t)
  else if '-' ∈ word ∨ '\'' ∈ word then (handle_hyphenated_word_st word, t)
  else apply_comprehensive_algorithm_st t (stripPunct word)

end PortugueseSyllabifierNLTK

namespace RRSoundDetector

open PortugueseSyllabifierNLTK

/-- The `RRSyllable` dataclass. -/
structure RRSyllable where
  word : List Char
  syllable : List Char
  syllable_start : Nat
  syllable_end : Nat
  difficulty : List Char
  pronunciation : List Char
  example_word : List Char
  pattern_type : List Char
deriving DecidableEq

/-- `self.r_patterns` entry values. -/
structure RPatternInfo where
  difficulty : List Char
  pronunciation : List Char
  examples : List (List Char)

/-- `self.r_patterns['rr']`. -/
def r_patterns_rr : RPatternInfo :=
  { difficulty := ("hard").data
    pronunciation := ("Strong trilled R sound").data
    examples := [("carro").data, ("ferro").data, ("guerra").data, ("terra").data, ("correio").data] }

/-- `self.r_patterns['r']`. -/
def r_patterns_r : RPatternInfo :=
  { difficulty := ("hard").data
    pronunciation := ("Trilled R sound").data
    examples := [("rato").data, ("rosa").data, ("rua").data, ("rio").data, ("rei").data, ("porta").data, ("carta").data] }

/-- `examples[0] if examples else ''`. -/
def headOrEmpty : List (List Char) → List Char
  | [] => []
  | e :: _ => e

/-- The character class `[a-zA-ZáâãàéêèíîìóôõòúûùçÇ]` of `tokenize_text`. -/
def tokenClassChars : List Char :=
  ("abcdefghijklmnopqrstuvwxyzABCDEFGHIJKLMNOPQRSTUVWXYZáâãàéêèíîìóôõòúûùçÇ").data

def isClassChar (c : Char) : Bool := decide (c ∈ tokenClassChars)

/-- `re.findall(r'\b[a-zA-Z...çÇ]+\b', text)`: maximal class-character runs
whose flanks are word boundaries.  `prevNonWord` records whether the
previous character (if any) was a non-word character.  The `fuel`
argument only makes the recursion structural; each step consumes at
least one character, so with `fuel` at least the length of the list (as
`tokenize_text` passes it) the `0, _, _` arm is never reached on a
nonempty list. -/
def tokLoop : Nat → Bool → List Char → List (List Char)
  | _, _, [] => []
  | 0, _, _ => []
  | fuel + 1, prevNonWord, c :: rest =>
    if isClassChar c then
      let run := (c :: rest).takeWhile isClassChar
      let rest2 := (c :: rest).dropWhile isClassChar
      let okEnd := match rest2 with
        | [] => true
        | d :: _ => !isWordChar d
      (if prevNonWord && okEnd then [run] else []) ++ tokLoop fuel false rest2
    else
      tokLoop fuel (!isWordChar c) rest

/-- `tokenize_text`. -/
def tokenize_text (text : List Char) : List (List Char) :=
  tokLoop text.length true text

/-- The syllable loop of `_analyze_word_syllables`: advance a cursor, and
for each syllable containing an `r`, record a hit only if the source slice
matches the syllable case-insensitively. -/
def syllableLoop (original_text word : List Char) (word_has_double_rr : Bool) :
    List (List Char) → Nat → List RRSyllable
  | [], _ => []
  | syllable :: rest, current_pos =>
    let syllable_lower := lowerL syllable
    let hits :=
      if 'r' ∈ syllable_lower then
        let syllable_start := current_pos
        let syllable_end := current_pos + syllable.length
        let original_syllable := sliceL original_text syllable_start syllable_end
        if lowerL original_syllable = syllable_lower then
          let info := if word_has_double_rr then r_patterns_rr else r_patterns_r
          [{ word := word
             syllable := syllable
             syllable_start := syllable_start
             syllable_end := syllable_end
             difficulty := info.difficulty
             pronunciation := info.pronunciation
             example_word := headOrEmpty info.examples
             pattern_type := if word_has_double_rr then ("double_rr").data else ("single_r").data }]
        else []
      else []
    hits ++ syllableLoop original_text word word_has_double_rr rest (current_pos + syllable.length)

/-- `_analyze_word_syllables`. -/
def analyze_word_syllables (word original_text : List Char) (word_start? : Option Nat) :
    List RRSyllable :=
  let syllables := syllabify word
  let word_lower := lowerL word
  let ws := match word_start? with
    | some s => some s
    | none => strFind (lowerL original_text) word_lower 0
  match ws with
  | none => []
  | some word_start =>
    let word_has_double_rr := containsSeq word_lower (("rr").data)
    syllableLoop original_text word word_has_double_rr syllables word_start

/-- The word loop of `detect_rr_syllables`, with its advancing cursor. -/
def detectLoop (text text_lower : List Char) : List (List Char) → Nat → List RRSyllable
  | [], _ => []
  | word :: ws, current_pos =>
    match strFind text_lower (lowerL word) current_pos with
    | some word_start =>
      analyze_word_syllables word text (some word_start) ++
        detectLoop text text_lower ws (word_start + word.length)
    | none =>
      analyze_word_syllables word text none ++ detectLoop text text_lower ws current_pos

/-- Stable insertion for the sort by `syllable_start`. -/
def insertHit (h : RRSyllable) : List RRSyllable → List RRSyllable
  | [] => [h]
  | x :: xs =>
    if x.syllable_start ≤ h.syllable_start then x :: insertHit h xs else h :: x :: xs

/-- Python's stable `list.sort(key=lambda x: x.syllable_start)`. -/
def sortHits (l : List RRSyllable) : List RRSyllable :=
  l.foldl (fun acc h => insertHit h acc) []

/-- `detect_rr_syllables`. -/
def detect_rr_syllables (text : List Char) : List RRSyllable :=
  sortHits (detectLoop text (lowerL text) (tokenize_text text) 0)

/-- The double-RR branch of the highlighting loop for one syllable slice. -/
def starsFor (syllable_text : List Char) : List Char :=
  let r_positions := (List.range syllable_text.length).filter
      (fun pos => charLower (syllable_text.getD pos ' ') == 'r')
  if 1 ≤ r_positions.length then
    if ("r").data.isSuffixOf (lowerL syllable_text) then
      let r_pos := syllable_text.length - 1
      (if 0 < r_pos then ['*'] ++ sliceL syllable_text 0 r_pos ++ ['*'] else []) ++
        (("**").data ++ sliceL syllable_text r_pos (r_pos + 1) ++ ("**").data)
    else if leadMatch (("r").data) (lowerL syllable_text) then
      (("**").data ++ sliceL syllable_text 0 1 ++ ("**").data) ++
        (if 1 < syllable_text.length then ['*'] ++ syllable_text.drop 1 ++ ['*'] else [])
    else
      let r_pos := r_positions.headD 0
      (if 0 < r_pos then ['*'] ++ sliceL syllable_text 0 r_pos ++ ['*'] else []) ++
        (("**").data ++ sliceL syllable_text r_pos (r_pos + 1) ++ ("**").data) ++
        (if r_pos + 1 < syllable_text.length then ['*'] ++ syllable_text.drop (r_pos + 1) ++ ['*'] else [])
  else
    ['*'] ++ syllable_text ++ ['*']

/-- One step of the highlight compositing loop (`highlight_text`'s unused
`word_groups`/`char_highlights` locals are dead code and omitted). -/
def highlightStep (text : List Char) (st : List Char × Nat) (syllable : RRSyllable) :
    List Char × Nat :=
  let acc := if st.2 < syllable.syllable_start then
      st.1 ++ sliceL text st.2 syllable.syllable_start
    else st.1
  let syllable_text := sliceL text syllable.syllable_start syllable.syllable_end
  let body := if syllable.pattern_type = ("double_rr").data then starsFor syllable_text
              else ['*'] ++ syllable_text ++ ['*']
  (acc ++ body, syllable.syllable_end)

/-- `highlight_text`. -/
def highlight_text (text : List Char) (syllables : List RRSyllable) : List Char :=
  if syllables = [] then text
  else
    let sorted_syllables := sortHits syllables
    let st := sorted_syllables.foldl (highlightStep text) (([] : List Char), 0)
    let acc := if st.2 < text.length then st.1 ++ text.drop st.2 else st.1
    let acc2 := replaceSeq (("****").data) (("**X**").data) acc
    replaceSeq (("**r**X**r**").data) (("**r**X**r**").data) acc2

/-- The statistics record built by `get_statistics`. -/
structure RRStats where
  total_patterns : Nat
  by_difficulty : List (List Char × Nat)
  by_pattern_type : List (List Char × Nat)
  unique_words : Nat
deriving DecidableEq

/-- `d[k] = d.get(k, 0) + 1` on an insertion-ordered dict. -/
def bumpCount (k : List Char) : List (List Char × Nat) → List (List Char × Nat)
  | [] => [(k, 1)]
  | (k', n) :: rest => if k' = k then (k', n + 1) :: rest else (k', n) :: bumpCount k rest

/-- `d[k] += 1` for a preset key (Python raises for unknown keys, which is
unreachable here since `pattern_type` is always one of the two presets). -/
def bumpExisting (k : List Char) : List (List Char × Nat) → List (List Char × Nat)
  | [] => []
  | (k', n) :: rest => if k' = k then (k', n + 1) :: rest else (k', n) :: bumpExisting k rest

/-- `set.add` on an insertion-ordered representation. -/
def insertNew (x : List Char) (l : List (List Char)) : List (List Char) :=
  if x ∈ l then l else l ++ [x]

/-- `get_statistics`. -/
def get_statistics (syllables : List RRSyllable) : RRStats :=
  let folded := syllables.foldl
    (fun st s =>
      (bumpCount s.difficulty st.1,
       bumpExisting s.pattern_type st.2.1,
       insertNew (lowerL s.word) st.2.2))
    (([] : List (List Char × Nat)),
     ([((("double_rr").data), 0), ((("single_r").data), 0)] : List (List Char × Nat)),
     ([] : List (List Char)))
  { total_patterns := syllables.length
    by_difficulty := folded.1
    by_pattern_type := folded.2.1
    unique_words := folded.2.2.length }

/-- The dictionary returned by `analyze_text`. -/
structure AnalysisResult where
  original_text : List Char
  highlighted_text : List Char
  patterns : List RRSyllable
  statistics : RRStats
deriving DecidableEq

/-- `analyze_text`. -/
def analyze_text (text : List Char) : AnalysisResult :=
  let syllables := detect_rr_syllables text
  { original_text := text
    highlighted_text := highlight_text text syllables
    patterns := syllables
    statistics := get_statistics syllables }

end RRSoundDetector

/-! Claim-side predicates, used to state the claims over the embedding. -/

/-- No occurrence of `g`/`q` followed by `u` followed by `e`/`i`
(so neither marking substitution of `preprocess_gq_digraphs` can fire). -/
def noTriggerB : List Char → Bool
  | c0 :: c1 :: c2 :: rest =>
    !((charLower c0 == 'g' || charLower c0 == 'q') && charLower c1 == 'u' &&
      (charLower c2 == 'e' || charLower c2 == 'i')) && noTriggerB (c1 :: c2 :: rest)
  | _ => true

/-- The last hyphen-separated segment of a word. -/
def lastSeg (w : List Char) : List Char := (splitOnHyphen w).getLastD []

/-- The claim's reading of "ends, case- and diacritic-insensitively, in
ção or cao": the lowercased, diacritic-stripped word ends in `cao`. -/
def endsCaoInsensitive (w : List Char) : Bool :=
  ("cao").data.isSuffixOf (deaccent (lowerL w))

/-- Position `i` of `w` holds a vowel. -/
def vowelAt (w : List Char) (i : Nat) : Prop :=
  PortugueseSyllabifierNLTK.is_vowel (w.getD i ' ') = true

instance (w : List Char) (i : Nat) : Decidable (vowelAt w i) :=
  inferInstanceAs (Decidable (_ = true))

/-- The adjacent characters at positions `i`, `i+1` of `w` form a listed
diphthong (checked on the lowercased pair, as the code does). -/
def diphAt (w : List Char) (i : Nat) : Prop :=
  i + 1 < w.length ∧ lowerL (sliceL w i (i + 2)) ∈ PortugueseSyllabifierNLTK.diphthongs

instance (w : List Char) (i : Nat) : Decidable (diphAt w i) :=
  inferInstanceAs (Decidable (i + 1 < w.length ∧
    lowerL (sliceL w i (i + 2)) ∈ PortugueseSyllabifierNLTK.diphthongs))

/-! ### General lemmas on the list utilities -/

theorem joinL_append (xs ys : List (List Char)) : joinL (xs ++ ys) = joinL xs ++ joinL ys := by
  induction xs with
  | nil => simp [joinL]
  | cons s ss ih => simp [joinL, ih]

theorem sliceL_length {w : List Char} {a b : Nat} (hab : a ≤ b) (hb : b ≤ w.length) :
    (sliceL w a b).length = b - a := by
  simp only [sliceL, List.length_take, List.length_drop]
  omega

theorem sliceL_append_drop {w : List Char} {a b : Nat} (hab : a ≤ b) (hb : b ≤ w.length) :
    sliceL w a b ++ w.drop b = w.drop a := by
  have h1 : w.drop b = (w.drop a).drop (b - a) := by
    rw [List.drop_drop]
    congr 1
    omega
  rw [sliceL, h1, List.take_append_drop]

theorem sliceL_full {w : List Char} {start : Nat} :
    sliceL w start w.length = w.drop start := by
  rw [sliceL]
  exact List.take_of_length_le (by simp)

theorem sliceL_chars {w : List Char} {a b : Nat} {c : Char} (h : c ∈ sliceL w a b) : c ∈ w :=
  List.mem_of_mem_drop (List.mem_of_mem_take h)

theorem sliceL_ne_nil {w : List Char} {a b : Nat} (hab : a < b) (ha : a < w.length) :
    (sliceL w a b).isEmpty = false := by
  have h1 : (sliceL w a b).length = min (b - a) (w.length - a) := by
    simp [sliceL]
  have h2 : 0 < (sliceL w a b).length := by omega
  rcases hE : sliceL w a b with _ | ⟨x, xs⟩
  · rw [hE] at h2
    simp at h2
  · simp [List.isEmpty]

namespace PortugueseSyllabifierNLTK

theorem buildLoop_join (w : List Char) :
    ∀ (ps : List Nat) (start : Nat), joinL (buildLoop w ps start) = w.drop start := by
  intro ps
  induction ps with
  | nil =>
    intro start
    by_cases h : start < w.length
    · simp only [buildLoop, if_pos h, joinL, List.append_nil]
      exact sliceL_full
    · simp only [buildLoop, if_neg h, joinL]
      have : w.length ≤ start := by omega
      exact (List.drop_eq_nil_of_le this).symm
  | cons p ps ih =>
    intro start
    by_cases h : start < p ∧ p < w.length
    · simp only [buildLoop, if_pos h, joinL]
      rw [ih p]
      exact sliceL_append_drop (le_of_lt h.1) (le_of_lt h.2)
    · simp only [buildLoop, if_neg h]
      exact ih start

theorem buildLoop_chars (w : List Char) :
    ∀ (ps : List Nat) (start : Nat), ∀ s ∈ buildLoop w ps start, ∀ c ∈ s, c ∈ w := by
  intro ps
  induction ps with
  | nil =>
    intro start s hs c hc
    by_cases h : start < w.length
    · simp only [buildLoop, if_pos h, List.mem_singleton] at hs
      exact sliceL_chars (hs ▸ hc)
    · simp [buildLoop, if_neg h] at hs
  | cons p ps ih =>
    intro start s hs c hc
    by_cases h : start < p ∧ p < w.length
    · simp only [buildLoop, if_pos h, List.mem_cons] at hs
      rcases hs with hs | hs
      · exact sliceL_chars (hs ▸ hc)
      · exact ih p s hs c hc
    · simp only [buildLoop, if_neg h] at hs
      exact ih start s hs c hc

theorem buildLoop_elems_ne_nil (w : List Char) :
    ∀ (ps : List Nat) (start : Nat), ∀ s ∈ buildLoop w ps start, s.isEmpty = false := by
  intro ps
  induction ps with
  | nil =>
    intro start s hs
    by_cases h : start < w.length
    · simp only [buildLoop, if_pos h, List.mem_singleton] at hs
      subst hs
      exact sliceL_ne_nil h h
    · simp [buildLoop, if_neg h] at hs
  | cons p ps ih =>
    intro start s hs
    by_cases h : start < p ∧ p < w.length
    · simp only [buildLoop, if_pos h, List.mem_cons] at hs
      rcases hs with hs | hs
      · subst hs
        exact sliceL_ne_nil h.1 (lt_trans h.1 h.2)
      · exact ih p s hs
    · simp only [buildLoop, if_neg h] at hs
      exact ih start s hs

theorem build_eq_buildLoop {w : List Char} {pts : List Nat} (hp : pts ≠ []) :
    build_syllables_from_points w pts = buildLoop w (sortNat pts) 0 := by
  unfold build_syllables_from_points
  rw [if_neg hp]
  rw [List.filter_eq_self]
  intro s hs
  rw [buildLoop_elems_ne_nil w (sortNat pts) 0 s hs]
  rfl

theorem build_join {w : List Char} (hw : w ≠ []) (pts : List Nat) :
    joinL (build_syllables_from_points w pts) = w := by
  by_cases hp : pts = []
  · simp [build_syllables_from_points, hp, joinL]
  · rw [build_eq_buildLoop hp, buildLoop_join]
    rfl

theorem innerOffsets_mem_buildLoop (w : List Char) :
    ∀ (ps : List Nat) (start : Nat), start < w.length →
      ∀ x ∈ innerOffsets start (buildLoop w ps start), x ∈ ps := by
  intro ps
  induction ps with
  | nil =>
    intro start hst x hx
    by_cases h : start < w.length
    · simp [buildLoop, if_pos h, innerOffsets] at hx
    · simp [buildLoop, if_neg h, innerOffsets] at hx
  | cons p ps ih =>
    intro start hst x hx
    by_cases h : start < p ∧ p < w.length
    · rw [buildLoop, if_pos h] at hx
      rcases hr : buildLoop w ps p with _ | ⟨t, ts⟩
      · rw [hr] at hx
        simp [innerOffsets] at hx
      · rw [hr] at hx
        have hlen : (sliceL w start p).length = p - start :=
          sliceL_length (le_of_lt h.1) (le_of_lt h.2)
        simp only [innerOffsets, hlen, List.mem_cons] at hx
        rcases hx with hx | hx
        · have hxp : x = p := by omega
          rw [hxp]
          exact List.mem_cons_self _ _
        · have hsp : start + (p - start) = p := by omega
          have hm := ih p h.2 x
          rw [hr] at hm
          rw [hsp] at hx
          exact List.mem_cons_of_mem _ (hm hx)
    · rw [buildLoop, if_neg h] at hx
      exact List.mem_cons_of_mem _ (ih start hst x hx)

theorem mem_insD {x y : Nat} : ∀ {l : List Nat}, y ∈ insD x l ↔ y = x ∨ y ∈ l := by
  intro l
  induction l with
  | nil => simp [insD]
  | cons z zs ih =>
    simp only [insD]
    split_ifs with h1 h2
    · simp [List.mem_cons]
    · subst h2
      simp [List.mem_cons]
    · simp only [List.mem_cons, ih]
      tauto

theorem mem_dedupSort {x : Nat} : ∀ {l : List Nat}, x ∈ dedupSort l ↔ x ∈ l := by
  intro l
  induction l with
  | nil => simp [dedupSort]
  | cons y ys ih =>
    show x ∈ insD y (dedupSort ys) ↔ _
    rw [mem_insD]
    simp only [List.mem_cons, ih]

theorem mem_insN {x y : Nat} : ∀ {l : List Nat}, y ∈ insN x l ↔ y = x ∨ y ∈ l := by
  intro l
  induction l with
  | nil => simp [insN]
  | cons z zs ih =>
    simp only [insN]
    split_ifs with h1
    · simp [List.mem_cons]
    · simp only [List.mem_cons, ih]
      tauto

theorem mem_sortNat {x : Nat} : ∀ {l : List Nat}, x ∈ sortNat l ↔ x ∈ l := by
  intro l
  induction l with
  | nil => simp [sortNat]
  | cons y ys ih =>
    show x ∈ insN y (sortNat ys) ↔ _
    rw [mem_insN]
    simp only [List.mem_cons, ih]

end PortugueseSyllabifierNLTK

theorem innerOffsets_congr :
    ∀ (ss ts : List (List Char)) (start : Nat),
      ss.map List.length = ts.map List.length → innerOffsets start ss = innerOffsets start ts := by
  intro ss
  induction ss with
  | nil =>
    intro ts start h
    cases ts
    · rfl
    · simp at h
  | cons s ss ih =>
    intro ts start h
    cases ts with
    | nil => simp at h
    | cons t ts =>
      simp only [List.map_cons, List.cons.injEq] at h
      cases ss with
      | nil =>
        cases ts with
        | nil => simp [innerOffsets]
        | cons t2 ts2 => simp at h
      | cons s2 ss2 =>
        cases ts with
        | nil => simp at h
        | cons t2 ts2 =>
          simp only [innerOffsets, h.1]
          rw [ih (t2 :: ts2) (start + t.length) h.2]

theorem joinL_length (ss : List (List Char)) :
    (joinL ss).length = (ss.map List.length).sum := by
  induction ss with
  | nil => simp [joinL]
  | cons s ss ih => simp [joinL, ih]

theorem innerOffsets_cons2 (start : Nat) (s t : List Char) (ts : List (List Char)) :
    innerOffsets start (s :: t :: ts) =
      (start + s.length) :: innerOffsets (start + s.length) (t :: ts) := rfl

theorem innerOffsets_concat :
    ∀ (ss : List (List Char)) (e : List Char) (start : Nat), ss ≠ [] →
      innerOffsets start (ss ++ [e]) = innerOffsets start ss ++ [start + (joinL ss).length] := by
  intro ss
  induction ss with
  | nil => intro e start h; exact absurd rfl h
  | cons s ss ih =>
    intro e start _
    cases ss with
    | nil => simp [innerOffsets, joinL]
    | cons s2 ss2 =>
      have h2 : s2 :: ss2 ≠ [] := by simp
      have hih := ih e (start + s.length) h2
      rw [List.cons_append] at hih
      rw [List.cons_append, List.cons_append, innerOffsets_cons2, hih, innerOffsets_cons2]
      simp [joinL, List.cons_append, Nat.add_assoc]

/-! ### Character-level facts -/

theorem lookup_mem {α β : Type} [BEq α] [LawfulBEq α] :
    ∀ {l : List (α × β)} {a : α} {b : β}, l.lookup a = some b → (a, b) ∈ l := by
  intro l
  induction l with
  | nil => intro a b h; simp [List.lookup] at h
  | cons p ps ih =>
    intro a b h
    rcases p with ⟨k, v⟩
    rw [List.lookup] at h
    cases hak : a == k with
    | true =>
      rw [hak] at h
      simp only [Option.some.injEq] at h
      have hak' : a = k := eq_of_beq hak
      subst hak'
      subst h
      exact List.mem_cons_self _ _
    | false =>
      rw [hak] at h
      exact List.mem_cons_of_mem _ (ih h)

theorem lower_fix_of_lower : ∀ c ∈ lowercaseLetters, charLower c = c := by decide

theorem caseTable_snd_lower : ∀ p ∈ caseTable, p.2 ∈ lowercaseLetters := by decide

theorem wordChar_of_lowercase : ∀ c ∈ lowercaseLetters, isWordChar c = true := by decide

theorem wordChar_of_uppercase : ∀ c ∈ uppercaseLetters, isWordChar c = true := by decide

theorem lowercase_not_upperChar : ∀ c ∈ lowercaseLetters, isUpperChar c = false := by decide

theorem lowercase_isLowerChar : ∀ c ∈ lowercaseLetters, isLowerChar c = true := by decide

theorem charLower_idem (c : Char) : charLower (charLower c) = charLower c := by
  by_cases hc : ∃ l, caseTable.lookup c = some l
  · rcases hc with ⟨l, hl⟩
    have h1 : charLower c = l := by simp [charLower, hl]
    have hmem : (c, l) ∈ caseTable := lookup_mem hl
    have hlow : l ∈ lowercaseLetters := caseTable_snd_lower _ hmem
    rw [h1]
    exact lower_fix_of_lower l hlow
  · push_neg at hc
    have h0 : caseTable.lookup c = none := by
      cases h : caseTable.lookup c with
      | none => rfl
      | some l => exact absurd h (hc l)
    have h1 : charLower c = c := by simp [charLower, h0]
    rw [h1, h1]

theorem lower_mem_of_upper : ∀ c ∈ uppercaseLetters, charLower c ∈ lowercaseLetters := by
  decide

theorem charLower_mem_of_letter {c : Char} (h : isLetterChar c = true) :
    charLower c ∈ lowercaseLetters := by
  unfold isLetterChar at h
  rcases Bool.or_eq_true _ _ |>.mp h with h1 | h1
  · rw [lower_fix_of_lower c (of_decide_eq_true h1)]
    exact of_decide_eq_true h1
  · exact lower_mem_of_upper c (of_decide_eq_true h1)

theorem lowerL_fix : ∀ (w : List Char), (∀ c ∈ w, c ∈ lowercaseLetters) → lowerL w = w := by
  intro w
  induction w with
  | nil => intro _; rfl
  | cons c cs ih =>
    intro h
    simp only [lowerL, List.map_cons]
    rw [lower_fix_of_lower c (h c (List.mem_cons_self c cs))]
    have := ih (fun x hx => h x (List.mem_cons_of_mem c hx))
    rw [lowerL] at this
    rw [this]

theorem lowerL_idem (w : List Char) : lowerL (lowerL w) = lowerL w := by
  simp only [lowerL, List.map_map]
  apply List.map_congr_left
  intro a _
  exact charLower_idem a

theorem lowerL_length (w : List Char) : (lowerL w).length = w.length := by
  simp [lowerL]

/-! ### The marking substitutions are the identity without a trigger -/

namespace PortugueseSyllabifierNLTK

theorem subGU_id : ∀ (w : List Char), noTriggerB w = true → subGU w = w := by
  intro w
  match w with
  | [] => intro _; simp [subGU]
  | [c] => intro _; simp [subGU]
  | [c, d] => intro _; simp [subGU]
  | c0 :: c1 :: c2 :: rest =>
    intro h
    simp only [noTriggerB, Bool.and_eq_true] at h
    rcases h with ⟨h1, h2⟩
    by_cases hc : charLower c0 = 'g' ∧ charLower c1 = 'u' ∧
        (charLower c2 = 'e' ∨ charLower c2 = 'i') ∧ guLookahead rest = true
    · exfalso
      rcases hc with ⟨hg, hu, hei, _⟩
      rcases hei with he | he <;> simp [hg, hu, he] at h1
    · simp only [subGU]
      rw [if_neg hc]
      congr 1
      exact subGU_id (c1 :: c2 :: rest) h2
termination_by w => w.length

theorem subQU_id : ∀ (w : List Char), noTriggerB w = true → subQU w = w := by
  intro w
  match w with
  | [] => intro _; simp [subQU]
  | [c] => intro _; simp [subQU]
  | [c, d] => intro _; simp [subQU]
  | c0 :: c1 :: c2 :: rest =>
    intro h
    simp only [noTriggerB, Bool.and_eq_true] at h
    rcases h with ⟨h1, h2⟩
    by_cases hc : charLower c0 = 'q' ∧ charLower c1 = 'u' ∧
        (charLower c2 = 'e' ∨ charLower c2 = 'i') ∧ guLookahead rest = true
    · exfalso
      rcases hc with ⟨hg, hu, hei, _⟩
      rcases hei with he | he <;> simp [hg, hu, he] at h1
    · simp only [subQU]
      rw [if_neg hc]
      congr 1
      exact subQU_id (c1 :: c2 :: rest) h2
termination_by w => w.length

theorem preprocess_id {w : List Char} (h : noTriggerB w = true) :
    preprocess_gq_digraphs w = w := by
  unfold preprocess_gq_digraphs
  rw [subGU_id w h, subQU_id w h]

end PortugueseSyllabifierNLTK

theorem noTriggerB_lowerL : ∀ (w : List Char), noTriggerB (lowerL w) = noTriggerB w := by
  intro w
  match w with
  | [] => simp [noTriggerB, lowerL]
  | [c] => simp [noTriggerB, lowerL]
  | [c, d] => simp [noTriggerB, lowerL]
  | c0 :: c1 :: c2 :: rest =>
    show noTriggerB (charLower c0 :: charLower c1 :: charLower c2 :: lowerL rest) = _
    have htail : noTriggerB (charLower c1 :: charLower c2 :: lowerL rest)
        = noTriggerB (c1 :: c2 :: rest) := by
      have hx := noTriggerB_lowerL (c1 :: c2 :: rest)
      simpa [lowerL] using hx
    simp only [noTriggerB]
    rw [charLower_idem, charLower_idem, charLower_idem, htail]
termination_by w => w.length

theorem noTriggerB_take : ∀ (w : List Char) (n : Nat),
    noTriggerB w = true → noTriggerB (w.take n) = true := by
  intro w
  match w with
  | [] => intro n _; simp [noTriggerB]
  | [c] =>
    intro n _
    cases n with
    | zero => simp [noTriggerB]
    | succ m => simp [noTriggerB]
  | [c, d] =>
    intro n _
    match n with
    | 0 => simp [noTriggerB]
    | 1 => simp [noTriggerB]
    | m + 2 => simp [noTriggerB]
  | c0 :: c1 :: c2 :: rest =>
    intro n h
    simp only [noTriggerB, Bool.and_eq_true] at h
    rcases h with ⟨h1, h2⟩
    match n with
    | 0 => simp [noTriggerB]
    | 1 => simp [noTriggerB]
    | 2 => simp [noTriggerB]
    | m + 3 =>
      have ht : (c0 :: c1 :: c2 :: rest).take (m + 3) = c0 :: c1 :: c2 :: rest.take m := by
        simp
      rw [ht]
      simp only [noTriggerB, Bool.and_eq_true]
      refine ⟨h1, ?_⟩
      have hx := noTriggerB_take (c1 :: c2 :: rest) (m + 2) h2
      have ht2 : (c1 :: c2 :: rest).take (m + 2) = c1 :: c2 :: rest.take m := by
        simp
      rw [ht2] at hx
      exact hx
termination_by w => w.length

/-! ### Case classification for all-lowercase words -/

namespace PortugueseSyllabifierNLTK

theorem get_case_type_of_lowercase {c : Char} {cs : List Char}
    (h : ∀ x ∈ c :: cs, x ∈ lowercaseLetters) : get_case_type (c :: cs) = CaseKind.lower := by
  have hc := h c (List.mem_cons_self c cs)
  have hupper : ¬ isupperB (c :: cs) = true := by
    intro hu
    rw [isupperB, Bool.and_eq_true] at hu
    rcases hu with ⟨_, hall⟩
    have hcc := (List.all_eq_true.mp hall) c (List.mem_cons_self c cs)
    have h1 : isCasedChar c = true := by
      simp [isCasedChar, lowercase_isLowerChar c hc]
    rw [h1, lowercase_not_upperChar c hc] at hcc
    simp at hcc
  have htitle : ¬ istitleB (c :: cs) = true := by
    intro ht
    rw [istitleB, Bool.and_eq_true] at ht
    rcases ht with ⟨_, hloop⟩
    rw [istitleLoop] at hloop
    rw [lowercase_not_upperChar c hc, lowercase_isLowerChar c hc] at hloop
    simp at hloop
  unfold get_case_type
  rw [if_neg hupper, if_neg htitle]

theorem restore_case_of_lower {w : List Char} (h : get_case_type w = CaseKind.lower)
    (ss : List (List Char)) : restore_case w ss = ss := by
  unfold restore_case
  split_ifs with h1
  · rfl
  · rw [h]

theorem capitalizeL_length (s : List Char) : (capitalizeL s).length = s.length := by
  cases s <;> simp [capitalizeL, lowerL]

theorem restore_case_lengths (w : List Char) (ss : List (List Char)) :
    (restore_case w ss).map List.length = ss.map List.length := by
  unfold restore_case
  split_ifs with h1
  · rfl
  · cases hk : get_case_type w with
    | upper => rfl
    | lower => rfl
    | title =>
      cases ss with
      | nil => rfl
      | cons s rest => simp [capitalizeL_length]

theorem restore_case_ne_nil {w : List Char} {ss : List (List Char)} (h : ss ≠ []) :
    restore_case w ss ≠ [] := by
  unfold restore_case
  split_ifs with h1
  · exact h
  · cases hk : get_case_type w with
    | upper => exact h
    | lower => exact h
    | title =>
      cases ss with
      | nil => exact h
      | cons s rest => simp

end PortugueseSyllabifierNLTK

/-! ### maxList and position bookkeeping -/

theorem le_foldl_max : ∀ (l : List Nat) (init : Nat), init ≤ l.foldl Nat.max init := by
  intro l
  induction l with
  | nil => intro init; exact le_refl _
  | cons z zs ih =>
    intro init
    calc init ≤ Nat.max init z := Nat.le_max_left _ _
    _ ≤ zs.foldl Nat.max (Nat.max init z) := ih _

theorem mem_le_foldl_max : ∀ (l : List Nat) (init x : Nat), x ∈ l → x ≤ l.foldl Nat.max init := by
  intro l
  induction l with
  | nil => intro init x h; simp at h
  | cons z zs ih =>
    intro init x h
    rcases List.mem_cons.mp h with rfl | h2
    · calc x ≤ Nat.max init x := Nat.le_max_right _ _
      _ ≤ zs.foldl Nat.max (Nat.max init x) := le_foldl_max _ _
    · exact ih _ x h2

theorem le_maxList {l : List Nat} {x : Nat} (h : x ∈ l) : x ≤ maxList l := by
  cases l with
  | nil => simp at h
  | cons y ys =>
    rcases List.mem_cons.mp h with rfl | h2
    · exact le_foldl_max ys x
    · exact mem_le_foldl_max ys y x h2

theorem sliceL_pair {w : List Char} {i : Nat} (h : i + 1 < w.length) :
    sliceL w i (i + 2) = [w.getD i ' ', w.getD (i + 1) ' '] := by
  have h0 : i < w.length := by omega
  have h2 : i + 2 - i = 2 := by omega
  rw [sliceL, h2, List.getD_eq_getElem _ ' ' h0, List.getD_eq_getElem _ ' ' h,
    List.drop_eq_getElem_cons h0, List.drop_eq_getElem_cons h, List.take_succ_cons,
    List.take_succ_cons, List.take_zero]

theorem lowerL_getD {w : List Char} {k : Nat} (h : k < w.length) :
    (lowerL w).getD k ' ' = charLower (w.getD k ' ') := by
  have h2 : k < (lowerL w).length := by simpa [lowerL] using h
  rw [List.getD_eq_getElem _ ' ' h2, List.getD_eq_getElem _ ' ' h]
  simp [lowerL]

theorem suffix_drop_eq {l s : List Char} (h : s <:+ l) :
    l.drop (l.length - s.length) = s := by
  rcases h with ⟨t, rfl⟩
  have harith : (t ++ s).length - s.length = t.length := by
    simp
  rw [harith]
  exact List.drop_left t s

namespace PortugueseSyllabifierNLTK

theorem mem_vowelPositions {w : List Char} {i : Nat} :
    i ∈ vowelPositions w ↔ i < w.length ∧ is_vowel (w.getD i ' ') = true := by
  simp [vowelPositions, List.mem_filter, List.mem_range]

theorem vowelPositions_pairwise (w : List Char) : (vowelPositions w).Pairwise (· < ·) :=
  (List.pairwise_lt_range w.length).filter _

theorem filter_range_adjacent {p : Nat → Bool} {n : Nat} {l₁ l₂ : List Nat} {a b : Nat}
    (h : (List.range n).filter p = l₁ ++ a :: b :: l₂) :
    a < b ∧ ∀ c, a < c → c < b → c < n → p c = false := by
  have hpw : (l₁ ++ a :: b :: l₂).Pairwise (· < ·) := by
    rw [← h]
    exact (List.pairwise_lt_range n).filter p
  rcases List.pairwise_append.mp hpw with ⟨hpw1, hpw2, hcross⟩
  have hab : a < b := (List.pairwise_cons.mp hpw2).1 b (List.mem_cons_self b l₂)
  refine ⟨hab, ?_⟩
  intro c hac hcb hcn
  by_contra hpc
  have hpc' : p c = true := by
    revert hpc
    cases p c <;> simp
  have hcmem : c ∈ (List.range n).filter p := by
    rw [List.mem_filter, List.mem_range]
    exact ⟨hcn, hpc'⟩
  rw [h] at hcmem
  rcases List.mem_append.mp hcmem with hm | hm
  · have := hcross c hm a (List.mem_cons_self a _)
    omega
  · rcases List.mem_cons.mp hm with rfl | hm2
    · omega
    · rcases List.mem_cons.mp hm2 with rfl | hm3
      · omega
      · have hbc := (List.pairwise_cons.mp (List.pairwise_cons.mp hpw2).2).1 c hm3
        omega

theorem distribute_consonants_range {cs : List Char} {s pt : Nat}
    (h : pt ∈ distribute_consonants cs s) : s ≤ pt ∧ pt < s + cs.length := by
  unfold distribute_consonants at h
  split_ifs at h <;>
    first
      | (simp only [List.mem_singleton] at h; omega)
      | (simp only [oddIndicesBelow, List.mem_map, List.mem_filter, List.mem_range] at h
         rcases h with ⟨i, ⟨hi1, hi2⟩, rfl⟩
         omega)
      | simp at h

theorem diphthongs_eq : diphthongs =
    [['a','i'], ['a','u'], ['e','i'], ['e','u'], ['o','i'], ['o','u'], ['u','i'], ['i','u']] := by
  decide

theorem diph_chars_are_vowels {x y : Char} (h : [x, y] ∈ diphthongs) :
    x ∈ vowels ∧ y ∈ vowels := by
  have hall : ∀ p ∈ diphthongs, p.getD 0 ' ' ∈ vowels ∧ p.getD 1 ' ' ∈ vowels := by decide
  have h2 := hall [x, y] h
  simp only [List.getD_cons_zero, List.getD_cons_succ] at h2
  exact h2

theorem diphAt_vowels {w : List Char} {i : Nat} (h : diphAt w i) :
    is_vowel (w.getD i ' ') = true ∧ is_vowel (w.getD (i + 1) ' ') = true := by
  rcases h with ⟨hlen, hpair⟩
  rw [sliceL_pair hlen] at hpair
  simp only [lowerL, List.map_cons, List.map_nil] at hpair
  have hv := diph_chars_are_vowels hpair
  constructor
  · unfold is_vowel
    exact decide_eq_true hv.1
  · unfold is_vowel
    exact decide_eq_true hv.2

theorem pairPoints_good {w : List Char} {cv nv : Nat}
    (hcv : cv < nv) (hnv : nv < w.length)
    (hgap : ∀ j, cv < j → j < nv → is_vowel (w.getD j ' ') = false) :
    ∀ pt ∈ pairPoints w cv nv, ¬ (1 ≤ pt ∧ diphAt w (pt - 1)) := by
  intro pt hpt
  have hlen : (sliceL w (cv + 1) nv).length = nv - (cv + 1) :=
    sliceL_length (by omega) (by omega)
  simp only [pairPoints] at hpt
  split_ifs at hpt with hd h0 h1
  · simp at hpt
  · -- hiatus: no consonants, so nv = cv + 1 and the pair is not a diphthong
    simp only [List.mem_singleton] at hpt
    subst hpt
    have hnveq : nv = cv + 1 := by omega
    rintro ⟨hge, hdi⟩
    apply hd
    refine ⟨hnveq, ?_⟩
    have : cv + 1 - 1 = cv := by omega
    rw [this] at hdi
    rcases hdi with ⟨hl2, hpair⟩
    have : nv + 1 = cv + 2 := by omega
    rw [this]
    exact hpair
  · -- single consonant at position cv+1 = pt
    simp only [List.mem_singleton] at hpt
    subst hpt
    rintro ⟨hge, hdi⟩
    have hveq := (diphAt_vowels hdi).2
    have harith : cv + 1 - 1 + 1 = cv + 1 := by omega
    rw [harith] at hveq
    have := hgap (cv + 1) (by omega) (by omega)
    rw [this] at hveq
    simp at hveq
  · -- multiple consonants, distributed: all points lie on consonants
    have hrange := distribute_consonants_range hpt
    rintro ⟨hge, hdi⟩
    have hveq := (diphAt_vowels hdi).2
    have harith : pt - 1 + 1 = pt := by omega
    rw [harith] at hveq
    have := hgap pt (by omega) (by omega)
    rw [this] at hveq
    simp at hveq

theorem pairsLoop_good (w : List Char) :
    ∀ (suf pre : List Nat), vowelPositions w = pre ++ suf →
      ∀ pt ∈ pairsLoop w suf, ¬ (1 ≤ pt ∧ diphAt w (pt - 1)) := by
  intro suf
  induction suf with
  | nil =>
    intro pre h pt hpt
    simp [pairsLoop] at hpt
  | cons cv rest ih =>
    intro pre h pt hpt
    cases rest with
    | nil => simp [pairsLoop] at hpt
    | cons nv rest2 =>
      simp only [pairsLoop, List.mem_append] at hpt
      rcases hpt with hm | hm
      · have hfr : (List.range w.length).filter (fun i => is_vowel (w.getD i ' ')) =
            pre ++ cv :: nv :: rest2 := by
          rw [← h]
          rfl
        have hadj := filter_range_adjacent hfr
        have hnv : nv < w.length := by
          have : nv ∈ vowelPositions w := by
            rw [h]
            simp
          exact (mem_vowelPositions.mp this).1
        refine pairPoints_good hadj.1 hnv ?_ pt hm
        intro j hj1 hj2
        exact hadj.2 j hj1 hj2 (by omega)
      · refine ih (pre ++ [cv]) ?_ pt hm
        rw [h]
        simp

theorem handle_final_good {w : List Char} {pts : List Nat}
    (hpts : ∀ pt ∈ pts, ¬ (1 ≤ pt ∧ diphAt w (pt - 1))) :
    ∀ pt ∈ handle_final_consonants w pts (vowelPositions w), ¬ (1 ≤ pt ∧ diphAt w (pt - 1)) := by
  intro pt hpt
  cases hv : vowelPositions w with
  | nil =>
    rw [hv] at hpt
    simp only [handle_final_consonants] at hpt
    exact hpts pt hpt
  | cons v vs =>
    rw [hv] at hpt
    simp only [handle_final_consonants] at hpt
    rw [mem_dedupSort] at hpt
    split_ifs at hpt with h1 h2 h3 h4
    · exact hpts pt hpt
    · exact hpts pt hpt
    · rcases List.mem_append.mp hpt with hm | hm
      · exact hpts pt hm
      · simp only [List.mem_singleton] at hm
        subst hm
        rintro ⟨hge, hdi⟩
        have hveq := (diphAt_vowels hdi).2
        have harith : w.length - 1 - 1 + 1 = w.length - 1 := by omega
        rw [harith] at hveq
        have hmem : w.length - 1 ∈ vowelPositions w := by
          rw [mem_vowelPositions]
          exact ⟨by omega, hveq⟩
        rw [hv] at hmem
        have hle := le_maxList hmem
        omega
    · rcases List.mem_append.mp hpt with hm | hm
      · exact hpts pt hm
      · simp only [List.mem_singleton] at hm
        subst hm
        rintro ⟨hge, hdi⟩
        have hveq := (diphAt_vowels hdi).2
        have harith : w.length - 1 - 1 + 1 = w.length - 1 := by omega
        rw [harith] at hveq
        have hmem : w.length - 1 ∈ vowelPositions w := by
          rw [mem_vowelPositions]
          exact ⟨by omega, hveq⟩
        rw [hv] at hmem
        have hle := le_maxList hmem
        omega
    · exact hpts pt hpt

end PortugueseSyllabifierNLTK

/-! ### Postprocessing is the identity on mark-free syllables -/

theorem replAux_pair_id {a b c : Char} : ∀ (n : Nat) (s : List Char), b ∉ s →
    replAux [a, b] [c] n s = s := by
  intro n
  induction n with
  | zero =>
    intro s _
    cases s <;> rfl
  | succ m ih =>
    intro s h
    cases s with
    | nil => rfl
    | cons x rest =>
      have hb : b ∉ rest := fun hx => h (List.mem_cons_of_mem _ hx)
      have hcond : (!([a, b] : List Char).isEmpty && leadMatch [a, b] (x :: rest)) = false := by
        cases rest with
        | nil => simp [leadMatch]
        | cons y ys =>
          have hby : b ≠ y := fun he => h (by
            rw [he]
            exact List.mem_cons_of_mem x (List.mem_cons_self y ys))
          have : (b == y) = false := beq_eq_false_iff_ne.mpr hby
          simp [leadMatch, this]
      simp only [replAux, hcond]
      simp [ih rest hb]

theorem replaceSeq_pair_id {a b c : Char} : ∀ (s : List Char), b ∉ s →
    replaceSeq [a, b] [c] s = s :=
  fun s h => replAux_pair_id s.length s h

namespace PortugueseSyllabifierNLTK

theorem postprocess_id : ∀ (ss : List (List Char)), (∀ s ∈ ss, markChar ∉ s) →
    postprocess_gq_digraphs ss = ss := by
  intro ss
  induction ss with
  | nil => intro _; rfl
  | cons s rest ih =>
    intro h
    have h1 := h s (List.mem_cons_self s rest)
    have h2 : ∀ x ∈ rest, markChar ∉ x := fun x hx => h x (List.mem_cons_of_mem s hx)
    show (s :: rest).map _ = s :: rest
    simp only [List.map_cons]
    rw [replaceSeq_pair_id s h1, replaceSeq_pair_id s h1]
    have hrest := ih h2
    unfold postprocess_gq_digraphs at hrest
    rw [hrest]

theorem build_mark_free {w : List Char} (hmw : markChar ∉ w) (pts : List Nat) :
    ∀ s ∈ build_syllables_from_points w pts, markChar ∉ s := by
  intro s hs hm
  unfold build_syllables_from_points at hs
  split_ifs at hs with hp
  · simp only [List.mem_singleton] at hs
    subst hs
    exact hmw hm
  · exact hmw (buildLoop_chars w _ 0 s (List.mem_filter.mp hs).1 markChar hm)

/-! ### Nonemptiness of results -/

theorem subGU_ne_nil : ∀ {w : List Char}, w ≠ [] → subGU w ≠ [] := by
  intro w h
  match w with
  | [] => exact absurd rfl h
  | [c] => simp [subGU]
  | [c, d] => simp [subGU]
  | c0 :: c1 :: c2 :: rest =>
    simp only [subGU]
    split_ifs <;> simp

theorem subQU_ne_nil : ∀ {w : List Char}, w ≠ [] → subQU w ≠ [] := by
  intro w h
  match w with
  | [] => exact absurd rfl h
  | [c] => simp [subQU]
  | [c, d] => simp [subQU]
  | c0 :: c1 :: c2 :: rest =>
    simp only [subQU]
    split_ifs <;> simp

theorem build_ne_nil {w : List Char} (hw : w ≠ []) (pts : List Nat) :
    build_syllables_from_points w pts ≠ [] := by
  intro he
  have hj := build_join hw pts
  rw [he] at hj
  simp only [joinL] at hj
  exact hw hj.symm

theorem rules_ne_nil (word : List Char) : apply_syllabification_rules word ≠ [] := by
  simp only [apply_syllabification_rules]
  split_ifs with h1 h2
  · simp
  · simp
  · unfold postprocess_gq_digraphs
    simp only [ne_eq, List.map_eq_nil]
    apply build_ne_nil
    apply subQU_ne_nil
    apply subGU_ne_nil
    intro he
    subst he
    simp at h1

/-! ### Facts about the exception lexicon, checked by evaluation -/

theorem special_patterns_join : ∀ p ∈ special_patterns, joinL p.2 = p.1 := by decide

theorem special_patterns_key_len : ∀ p ∈ special_patterns, 2 ≤ p.1.length := by decide

theorem special_patterns_no_hyphen : ∀ p ∈ special_patterns, '-' ∉ p.1 := by decide

theorem special_patterns_vals_ne_nil : ∀ p ∈ special_patterns, p.2 ≠ [] := by decide

theorem special_patterns_key_chars :
    ∀ p ∈ special_patterns, ∀ c ∈ p.1, isWordChar c = true ∨ c = '\'' := by decide

end PortugueseSyllabifierNLTK

/-! ### More character transfer lemmas -/

theorem wordChar_of_charLower {c : Char} (h : isWordChar (charLower c) = true) :
    isWordChar c = true := by
  cases hl : caseTable.lookup c with
  | none =>
    have : charLower c = c := by simp [charLower, hl]
    rw [this] at h
    exact h
  | some l =>
    have hmem : (c, l) ∈ caseTable := lookup_mem hl
    have hup : c ∈ uppercaseLetters := (List.of_mem_zip hmem).1
    exact wordChar_of_uppercase c hup

theorem charLower_eq_of_not_lower {c x : Char} (hx : x ∉ lowercaseLetters)
    (h : charLower c = x) : c = x := by
  cases hl : caseTable.lookup c with
  | none =>
    have : charLower c = c := by simp [charLower, hl]
    rw [this] at h
    exact h
  | some l =>
    have hcl : charLower c = l := by simp [charLower, hl]
    have hlx : l = x := by rw [← hcl, h]
    have hmem : (c, l) ∈ caseTable := lookup_mem hl
    have hlow := caseTable_snd_lower _ hmem
    rw [hlx] at hlow
    exact absurd hlow hx

theorem splitOnHyphen_no_hyphen : ∀ (w : List Char), '-' ∉ w → splitOnHyphen w = [w] := by
  intro w
  induction w with
  | nil => intro _; rfl
  | cons c rest ih =>
    intro h
    have hc : c ≠ '-' := fun he => h (he ▸ List.mem_cons_self c rest)
    have hrest : '-' ∉ rest := fun hx => h (List.mem_cons_of_mem c hx)
    simp only [splitOnHyphen, if_neg hc, ih hrest]

theorem sliceL_map (f : Char → Char) (w : List Char) (a b : Nat) :
    sliceL (w.map f) a b = (sliceL w a b).map f := by
  simp [sliceL, List.map_take, List.map_drop]

theorem diphAt_lowerL {w : List Char} {i : Nat} :
    diphAt (lowerL w) i ↔ diphAt w i := by
  unfold diphAt
  rw [lowerL_length]
  have hsl : lowerL (sliceL (lowerL w) i (i + 2)) = lowerL (sliceL w i (i + 2)) := by
    show lowerL (sliceL (w.map charLower) i (i + 2)) = _
    rw [sliceL_map]
    exact lowerL_idem _
  rw [hsl]

/-! ### Path lemmas through the rules engine and the override layer -/

theorem wordChar_of_letter {c : Char} (h : isLetterChar c = true) : isWordChar c = true := by
  unfold isLetterChar at h
  unfold isWordChar
  rcases Bool.or_eq_true _ _ |>.mp h with h1 | h1 <;> simp [h1]

theorem sliceL_take {w : List Char} {k a b : Nat} (h : b ≤ k) :
    sliceL (w.take k) a b = sliceL w a b := by
  simp only [sliceL, List.drop_take, List.take_take]
  congr 1
  omega

theorem suffix3_getD {l s : List Char} (hs : s <:+ l) (hlen : s.length = 3) :
    l.getD (l.length - 3) ' ' = s.getD 0 ' ' := by
  rcases hs with ⟨t, rfl⟩
  have h1 : (t ++ s).length - 3 = t.length := by
    rw [List.length_append]
    omega
  rw [h1]
  have hb : t.length < (t ++ s).length := by
    rw [List.length_append]
    omega
  rw [List.getD_eq_getElem _ ' ' hb]
  rw [List.getElem_append_right (le_refl t.length)]
  have h0 : 0 < s.length := by omega
  rw [List.getD_eq_getElem _ ' ' h0]
  congr 1
  omega

theorem innerOffsets_lt :
    ∀ (ss : List (List Char)) (start : Nat), (∀ s ∈ ss, s ≠ []) →
      ∀ x ∈ innerOffsets start ss, x < start + (joinL ss).length := by
  intro ss
  induction ss with
  | nil => intro start _ x hx; simp [innerOffsets] at hx
  | cons s rest ih =>
    intro start hne x hx
    cases rest with
    | nil => simp [innerOffsets] at hx
    | cons t ts =>
      rw [innerOffsets_cons2] at hx
      have hlen : (joinL (s :: t :: ts)).length = s.length + (joinL (t :: ts)).length := by
        simp [joinL]
      have hlen2 : (joinL (t :: ts)).length = t.length + (joinL ts).length := by
        simp [joinL]
      rcases List.mem_cons.mp hx with rfl | hm
      · have htne : t ≠ [] := hne t (List.mem_cons_of_mem s (List.mem_cons_self t ts))
        have htlen : 0 < t.length := List.length_pos.mpr htne
        omega
      · have hih := ih (start + s.length) (fun u hu => hne u (List.mem_cons_of_mem s hu)) x hm
        omega

namespace PortugueseSyllabifierNLTK

theorem rules_join : ∀ (w : List Char), (∀ c ∈ w, c ∈ lowercaseLetters) →
    noTriggerB w = true → joinL (apply_syllabification_rules w) = w := by
  intro w hlet hnt
  have hpre : preprocess_gq_digraphs w = w := preprocess_id hnt
  simp only [apply_syllabification_rules, hpre]
  split_ifs with h1 h2
  · simp [joinL]
  · simp [joinL]
  · have hwne : w ≠ [] := by
      intro he
      subst he
      simp at h1
    have hml : markChar ∉ lowercaseLetters := by decide
    have hmw : markChar ∉ w := fun hm => hml (hlet _ hm)
    rw [postprocess_id _ (build_mark_free hmw _)]
    exact build_join hwne _

theorem rules_elems_ne_nil {word : List Char} (hne : word ≠ [])
    (hnt : noTriggerB word = true) (hmw : markChar ∉ word) :
    ∀ s ∈ apply_syllabification_rules word, s ≠ [] := by
  intro s hs
  have hpre : preprocess_gq_digraphs word = word := preprocess_id hnt
  simp only [apply_syllabification_rules, hpre] at hs
  split_ifs at hs with h1 h2
  · simp only [List.mem_singleton] at hs
    subst hs
    exact hne
  · simp only [List.mem_singleton] at hs
    subst hs
    exact hne
  · rw [postprocess_id _ (build_mark_free hmw _)] at hs
    unfold build_syllables_from_points at hs
    split_ifs at hs with hp
    · simp only [List.mem_singleton] at hs
      subst hs
      exact hne
    · have := (List.mem_filter.mp hs).2
      intro he
      subst he
      simp at this

theorem rules_inner_good {w : List Char} (hlet : ∀ c ∈ w, c ∈ lowercaseLetters)
    (hnt : noTriggerB w = true) :
    ∀ x ∈ innerOffsets 0 (apply_syllabification_rules w), ¬ (1 ≤ x ∧ diphAt w (x - 1)) := by
  intro x hx
  have hpre : preprocess_gq_digraphs w = w := preprocess_id hnt
  simp only [apply_syllabification_rules, hpre] at hx
  split_ifs at hx with h1 h2
  · simp [innerOffsets] at hx
  · simp [innerOffsets] at hx
  · have hwne : w ≠ [] := by
      intro he
      subst he
      simp at h1
    have hml : markChar ∉ lowercaseLetters := by decide
    have hmw : markChar ∉ w := fun hm => hml (hlet _ hm)
    rw [postprocess_id _ (build_mark_free hmw _)] at hx
    by_cases hp : handle_final_consonants w (pairsLoop w (vowelPositions w)) (vowelPositions w) = []
    · rw [hp] at hx
      simp [build_syllables_from_points, innerOffsets] at hx
    · rw [build_eq_buildLoop hp] at hx
      have hlen0 : 0 < w.length := List.length_pos.mpr hwne
      have hxin := innerOffsets_mem_buildLoop w _ 0 hlen0 x hx
      rw [mem_sortNat] at hxin
      exact handle_final_good (pairsLoop_good w (vowelPositions w) [] (by simp)) x hxin

theorem get_case_lower_of_letters {w : List Char} (hne : w ≠ [])
    (h : ∀ c ∈ w, c ∈ lowercaseLetters) : get_case_type w = CaseKind.lower := by
  rcases w with _ | ⟨c, cs⟩
  · exact absurd rfl hne
  · exact get_case_type_of_lowercase h

theorem handle_cao_suffix_branch {word : List Char}
    (h : (("cao").data.isSuffixOf (lowerL word) || ("ção").data.isSuffixOf (lowerL word)) = true) :
    handle_cao_words word =
      (if (word.take (word.length - 3)).length ≤ 2 then
        [word.take (word.length - 3), word.drop (word.length - 3)]
      else apply_syllabification_rules (lowerL (word.take (word.length - 3))) ++
        [word.drop (word.length - 3)]) := by
  simp only [handle_cao_words]
  rw [if_pos h]

theorem handle_cao_last {word : List Char}
    (h : (("cao").data.isSuffixOf (lowerL word) || ("ção").data.isSuffixOf (lowerL word)) = true) :
    (handle_cao_words word).getLast? = some (word.drop (word.length - 3)) := by
  rw [handle_cao_suffix_branch h]
  split_ifs with h2
  · rfl
  · exact List.getLast?_concat _

theorem handle_cao_ne_nil (word : List Char) : handle_cao_words word ≠ [] := by
  simp only [handle_cao_words]
  split_ifs with h1 h2
  · simp
  · simp
  · exact rules_ne_nil _

theorem acaA_lookup_some {word : List Char} {syls : List (List Char)}
    (h : special_patterns.lookup (lowerL word) = some syls) :
    apply_comprehensive_algorithm word = restore_case word syls := by
  simp only [apply_comprehensive_algorithm]
  rw [h]

theorem acaA_lookup_none_cao {word : List Char}
    (h : special_patterns.lookup (lowerL word) = none)
    (hc : (("cao").data.isSuffixOf (lowerL word) || ("ção").data.isSuffixOf (lowerL word)) = true) :
    apply_comprehensive_algorithm word = handle_cao_words word := by
  simp only [apply_comprehensive_algorithm]
  rw [h]
  show (if _ then _ else _) = _
  rw [if_pos hc]

theorem acaA_lookup_none_rules {word : List Char}
    (h : special_patterns.lookup (lowerL word) = none)
    (hc : (("cao").data.isSuffixOf (lowerL word) || ("ção").data.isSuffixOf (lowerL word)) = false) :
    apply_comprehensive_algorithm word =
      restore_case word (apply_syllabification_rules (lowerL word)) := by
  simp only [apply_comprehensive_algorithm]
  rw [h]
  show (if _ then _ else _) = _
  rw [if_neg (by rw [hc]; exact Bool.false_ne_true)]

theorem acaA_ne_nil (word : List Char) : apply_comprehensive_algorithm word ≠ [] := by
  cases hl : special_patterns.lookup (lowerL word) with
  | some syls =>
    rw [acaA_lookup_some hl]
    exact restore_case_ne_nil (special_patterns_vals_ne_nil _ (lookup_mem hl))
  | none =>
    by_cases hc : (("cao").data.isSuffixOf (lowerL word) ||
        ("ção").data.isSuffixOf (lowerL word)) = true
    · rw [acaA_lookup_none_cao hl hc]
      exact handle_cao_ne_nil word
    · have hc' : (("cao").data.isSuffixOf (lowerL word) ||
          ("ção").data.isSuffixOf (lowerL word)) = false := by
        revert hc
        cases ("cao").data.isSuffixOf (lowerL word) || ("ção").data.isSuffixOf (lowerL word) <;>
          simp
      rw [acaA_lookup_none_rules hl hc']
      exact restore_case_ne_nil (rules_ne_nil _)

theorem handle_cao_join {w : List Char} (hlet : ∀ c ∈ w, c ∈ lowercaseLetters)
    (hnt : noTriggerB w = true)
    (hc : (("cao").data.isSuffixOf (lowerL w) || ("ção").data.isSuffixOf (lowerL w)) = true) :
    joinL (handle_cao_words w) = w := by
  rw [handle_cao_suffix_branch hc]
  have hbl : ∀ c ∈ w.take (w.length - 3), c ∈ lowercaseLetters :=
    fun c hcm => hlet c (List.mem_of_mem_take hcm)
  split_ifs with h2
  · simp only [joinL, List.append_nil]
    exact List.take_append_drop _ w
  · rw [joinL_append]
    simp only [joinL, List.append_nil]
    rw [lowerL_fix _ hbl, rules_join _ hbl (noTriggerB_take w _ hnt)]
    exact List.take_append_drop _ w

theorem acaA_join {w : List Char} (hlet : ∀ c ∈ w, c ∈ lowercaseLetters)
    (hnt : noTriggerB w = true) :
    joinL (apply_comprehensive_algorithm w) = w := by
  have hlw : lowerL w = w := lowerL_fix w hlet
  cases hl : special_patterns.lookup (lowerL w) with
  | some syls =>
    rw [acaA_lookup_some hl]
    have hmem := lookup_mem hl
    have hj : joinL syls = lowerL w := special_patterns_join _ hmem
    rw [hlw] at hj
    have hk := special_patterns_key_len _ hmem
    rw [lowerL_length] at hk
    have hne : w ≠ [] := by
      intro he
      subst he
      simp at hk
    rw [restore_case_of_lower (get_case_lower_of_letters hne hlet) _, hj]
  | none =>
    by_cases hc : (("cao").data.isSuffixOf (lowerL w) ||
        ("ção").data.isSuffixOf (lowerL w)) = true
    · rw [acaA_lookup_none_cao hl hc]
      exact handle_cao_join hlet hnt hc
    · have hc' : (("cao").data.isSuffixOf (lowerL w) ||
          ("ção").data.isSuffixOf (lowerL w)) = false := by
        revert hc
        cases ("cao").data.isSuffixOf (lowerL w) || ("ção").data.isSuffixOf (lowerL w) <;> simp
      rw [acaA_lookup_none_rules hl hc', hlw]
      rcases hwe : w with _ | ⟨c, cs⟩
      · decide
      · rw [restore_case_of_lower (get_case_type_of_lowercase (hwe ▸ hlet)) _]
        rw [← hwe]
        exact rules_join w hlet hnt

end PortugueseSyllabifierNLTK

namespace PortugueseSyllabifierNLTK

theorem ending_not_vowel {w : List Char} {x : Nat}
    (hc : (("cao").data.isSuffixOf (lowerL w) || ("ção").data.isSuffixOf (lowerL w)) = true)
    (hx : x = w.length - 3) (hw3 : 3 ≤ w.length) (hge : 1 ≤ x) (hdi : diphAt w (x - 1)) :
    False := by
  have hveq := (diphAt_vowels hdi).2
  have harith : x - 1 + 1 = x := by omega
  rw [harith, hx] at hveq
  have hll : (lowerL w).length = w.length := lowerL_length w
  have hlow : (lowerL w).getD (w.length - 3) ' ' = charLower (w.getD (w.length - 3) ' ') :=
    lowerL_getD (by omega)
  rcases Bool.or_eq_true _ _ |>.mp hc with hs | hs
  · have hsuf : ("cao").data <:+ lowerL w := List.isSuffixOf_iff_suffix.mp hs
    have h3 := suffix3_getD hsuf (by decide)
    rw [hll, hlow] at h3
    have hcd : ("cao").data.getD 0 ' ' = 'c' := by decide
    rw [hcd] at h3
    unfold is_vowel at hveq
    rw [h3] at hveq
    exact absurd hveq (by decide)
  · have hsuf : ("ção").data <:+ lowerL w := List.isSuffixOf_iff_suffix.mp hs
    have h3 := suffix3_getD hsuf (by decide)
    rw [hll, hlow] at h3
    have hcd : ("ção").data.getD 0 ' ' = 'ç' := by decide
    rw [hcd] at h3
    unfold is_vowel at hveq
    rw [h3] at hveq
    exact absurd hveq (by decide)

theorem acaA_inner_good {w : List Char} (hlet : ∀ c ∈ w, isLetterChar c = true)
    (hnt : noTriggerB w = true)
    (hl : special_patterns.lookup (lowerL w) = none) :
    ∀ x ∈ innerOffsets 0 (apply_comprehensive_algorithm w), ¬ (1 ≤ x ∧ diphAt w (x - 1)) := by
  have hlow : ∀ c ∈ lowerL w, c ∈ lowercaseLetters := by
    intro c hcm
    rcases List.mem_map.mp hcm with ⟨d, hd, rfl⟩
    exact charLower_mem_of_letter (hlet d hd)
  have hntl : noTriggerB (lowerL w) = true := by
    rw [noTriggerB_lowerL]
    exact hnt
  intro x hx
  by_cases hc : (("cao").data.isSuffixOf (lowerL w) || ("ção").data.isSuffixOf (lowerL w)) = true
  · rw [acaA_lookup_none_cao hl hc] at hx
    rw [handle_cao_suffix_branch hc] at hx
    have hw3 : 3 ≤ w.length := by
      rcases Bool.or_eq_true _ _ |>.mp hc with hs | hs <;>
      · have hsuf := List.isSuffixOf_iff_suffix.mp hs
        have hle := hsuf.length_le
        rw [lowerL_length] at hle
        simpa using hle
    have hbl : ∀ c ∈ lowerL (w.take (w.length - 3)), c ∈ lowercaseLetters := by
      intro c hcm
      rcases List.mem_map.mp hcm with ⟨d, hd, rfl⟩
      exact charLower_mem_of_letter (hlet d (List.mem_of_mem_take hd))
    have hbt : noTriggerB (lowerL (w.take (w.length - 3))) = true := by
      rw [noTriggerB_lowerL]
      exact noTriggerB_take w _ hnt
    have hblen : (w.take (w.length - 3)).length = w.length - 3 := by
      rw [List.length_take]
      omega
    split_ifs at hx with h2
    · simp only [innerOffsets, List.mem_singleton] at hx
      have hxv : x = w.length - 3 := by
        rw [hx, hblen]
        omega
      rintro ⟨hge, hdi⟩
      exact ending_not_vowel hc hxv hw3 hge hdi
    · rw [innerOffsets_concat _ _ 0 (rules_ne_nil _)] at hx
      have hjb : joinL (apply_syllabification_rules (lowerL (w.take (w.length - 3)))) =
          lowerL (w.take (w.length - 3)) := rules_join _ hbl hbt
      rcases List.mem_append.mp hx with hm | hm
      · rintro ⟨hge, hdi⟩
        have hbm : markChar ∉ lowerL (w.take (w.length - 3)) := by
          intro hmem
          have hml : markChar ∉ lowercaseLetters := by decide
          exact hml (hbl _ hmem)
        have hbne : lowerL (w.take (w.length - 3)) ≠ [] := by
          intro he
          have hlen0 := congrArg List.length he
          rw [lowerL_length, hblen] at hlen0
          simp at hlen0
          omega
        have hbound := innerOffsets_lt _ 0 (rules_elems_ne_nil hbne hbt hbm) x hm
        rw [hjb, lowerL_length, hblen] at hbound
        apply rules_inner_good hbl hbt x hm
        refine ⟨hge, ?_⟩
        rw [diphAt_lowerL]
        rcases hdi with ⟨hdl, hdp⟩
        refine ⟨?_, ?_⟩
        · rw [hblen]
          omega
        · rw [sliceL_take (by omega : x - 1 + 2 ≤ w.length - 3)]
          exact hdp
      · simp only [List.mem_singleton] at hm
        rintro ⟨hge, hdi⟩
        have hxv : x = w.length - 3 := by
          rw [hm, hjb, lowerL_length, hblen]
          omega
        exact ending_not_vowel hc hxv hw3 hge hdi
  · have hc' : (("cao").data.isSuffixOf (lowerL w) ||
        ("ção").data.isSuffixOf (lowerL w)) = false := by
      revert hc
      cases ("cao").data.isSuffixOf (lowerL w) || ("ção").data.isSuffixOf (lowerL w) <;> simp
    rw [acaA_lookup_none_rules hl hc'] at hx
    rw [innerOffsets_congr _ _ 0 (restore_case_lengths w _)] at hx
    rintro ⟨hge, hdi⟩
    exact rules_inner_good hlow hntl x hx ⟨hge, diphAt_lowerL.mpr hdi⟩

/-! ### Syllabify on an exception-lexicon word -/

theorem hyphenLoop_single (d : List (List Char)) (p : List Char) :
    hyphenLoop d [p] = if p.isEmpty then [] else apply_comprehensive_algorithm p := rfl

theorem syllabify_exception {w : List Char} {syls : List (List Char)}
    (h : special_patterns.lookup (lowerL w) = some syls) :
    syllabify w = restore_case w syls := by
  have hmem := lookup_mem h
  have hk := special_patterns_key_len _ hmem
  rw [lowerL_length] at hk
  have hkey : ∀ c ∈ w, charLower c ∈ lowerL w := fun c hc => List.mem_map_of_mem charLower hc
  have hnh : '-' ∉ w := by
    intro hcm
    have hmm := hkey '-' hcm
    have hcl : charLower '-' = '-' := by decide
    rw [hcl] at hmm
    exact special_patterns_no_hyphen _ hmem hmm
  have hne : w ≠ [] := by
    intro he
    subst he
    simp at hk
  unfold syllabify
  rw [if_neg (by
    simp only [Bool.or_eq_true, List.isEmpty_iff, decide_eq_true_eq]
    push_neg
    exact ⟨hne, by omega⟩)]
  by_cases hap : '\'' ∈ w
  · rw [if_pos (Or.inr hap)]
    unfold handle_hyphenated_word
    rw [splitOnHyphen_no_hyphen w hnh, hyphenLoop_single]
    rw [if_neg (by simp [List.isEmpty_iff, hne])]
    exact acaA_lookup_some h
  · rw [if_neg (by
      rintro (hcm | hcm)
      · exact hnh hcm
      · exact hap hcm)]
    have hstrip : stripPunct w = w := by
      unfold stripPunct
      rw [List.filter_eq_self]
      intro c hc
      rcases special_patterns_key_chars _ hmem _ (hkey c hc) with hw1 | hw1
      · simp [wordChar_of_charLower hw1]
      · exfalso
        have hq : '\'' ∉ lowercaseLetters := by decide
        have := charLower_eq_of_not_lower hq hw1
        subst this
        exact hap hc
    rw [hstrip]
    exact acaA_lookup_some h

end PortugueseSyllabifierNLTK

namespace PortugueseSyllabifierNLTK

theorem syllabify_roundtrip {w : List Char} (hlet : ∀ c ∈ w, c ∈ lowercaseLetters)
    (hnt : noTriggerB w = true) : joinL (syllabify w) = w := by
  unfold syllabify
  split_ifs with h1 h2
  · simp [joinL]
  · exfalso
    rcases h2 with hh | hh
    · exact absurd (hlet '-' hh) (by decide)
    · exact absurd (hlet '\'' hh) (by decide)
  · have hstrip : stripPunct w = w := by
      unfold stripPunct
      rw [List.filter_eq_self]
      intro c hc
      simp [wordChar_of_lowercase c (hlet c hc)]
    rw [hstrip]
    exact acaA_join hlet hnt

theorem syllabify_no_diph_split {w : List Char} (hlet : ∀ c ∈ w, isLetterChar c = true)
    (hnt : noTriggerB w = true)
    (hl : special_patterns.lookup (lowerL w) = none) :
    ∀ i, diphAt w i → (i + 1) ∉ innerOffsets 0 (syllabify w) := by
  intro i hdi hmem
  unfold syllabify at hmem
  split_ifs at hmem with h1 h2
  · simp [innerOffsets] at hmem
  · rcases h2 with hh | hh
    · exact absurd (hlet '-' hh) (by decide)
    · exact absurd (hlet '\'' hh) (by decide)
  · have hstrip : stripPunct w = w := by
      unfold stripPunct
      rw [List.filter_eq_self]
      intro c hc
      simp [wordChar_of_letter (hlet c hc)]
    rw [hstrip] at hmem
    exact acaA_inner_good hlet hnt hl (i + 1) hmem ⟨by omega, by simpa using hdi⟩

end PortugueseSyllabifierNLTK

/-! ### The last hyphen segment -/

theorem splitOnHyphen_ne_nil : ∀ (w : List Char), splitOnHyphen w ≠ [] := by
  intro w
  induction w with
  | nil => simp [splitOnHyphen]
  | cons c rest ih =>
    simp only [splitOnHyphen]
    split_ifs
    · simp
    · cases splitOnHyphen rest <;> simp

theorem getLastD_irrel : ∀ (l : List (List Char)) (a b : List Char), l ≠ [] →
    l.getLastD a = l.getLastD b := by
  intro l
  induction l with
  | nil => intro a b h; exact absurd rfl h
  | cons x xs ih =>
    intro a b _
    cases xs with
    | nil => rfl
    | cons y ys => simp only [List.getLastD_cons]

theorem getLast?_eq_some_getLastD :
    ∀ (l : List (List Char)), l ≠ [] → l.getLast? = some (l.getLastD []) := by
  intro l
  induction l with
  | nil => intro h; exact absurd rfl h
  | cons x xs ih =>
    intro _
    cases xs with
    | nil => rfl
    | cons y ys =>
      have hy := ih (by simp)
      rw [List.getLast?_cons_cons, hy]
      congr 1

theorem lastSeg_cons_hyphen {rest : List Char} : lastSeg ('-' :: rest) = lastSeg rest := by
  unfold lastSeg
  have h : splitOnHyphen ('-' :: rest) = [] :: splitOnHyphen rest := by
    simp [splitOnHyphen]
  rw [h, List.getLastD_cons]

theorem suffix_lastSeg : ∀ (w e : List Char), e <:+ w → (∀ c ∈ e, c ≠ '-') →
    e <:+ lastSeg w := by
  intro w
  induction w with
  | nil =>
    intro e he _
    have he0 : e = [] := List.eq_nil_of_suffix_nil he
    subst he0
    exact List.nil_suffix
  | cons c rest ih =>
    intro e he hnd
    rcases List.suffix_cons_iff.mp he with rfl | he2
    · have hnh : '-' ∉ c :: rest := fun hm => hnd '-' hm rfl
      unfold lastSeg
      rw [splitOnHyphen_no_hyphen _ hnh]
      exact List.suffix_refl _
    · have hrec := ih e he2 hnd
      by_cases hc : c = '-'
      · subst hc
        rw [lastSeg_cons_hyphen]
        exact hrec
      · have hspl : splitOnHyphen (c :: rest) =
            match splitOnHyphen rest with
            | [] => [[c]]
            | p :: ps => (c :: p) :: ps := by
          simp [splitOnHyphen, hc]
        rcases hsp : splitOnHyphen rest with _ | ⟨p, ps⟩
        · exact absurd hsp (splitOnHyphen_ne_nil rest)
        · unfold lastSeg
          rw [hspl, hsp]
          unfold lastSeg at hrec
          rw [hsp] at hrec
          show e <:+ ((c :: p) :: ps).getLastD []
          cases ps with
          | nil => exact hrec.trans (List.suffix_cons c p)
          | cons q qs =>
            rw [List.getLastD_cons] at hrec ⊢
            rw [getLastD_irrel (q :: qs) (c :: p) p (by simp)]
            exact hrec

theorem getLast?_append_right {l l' : List (List Char)} (h : l' ≠ []) :
    (l ++ l').getLast? = l'.getLast? := by
  rw [List.getLast?_append]
  rw [getLast?_eq_some_getLastD l' h]
  rfl

namespace PortugueseSyllabifierNLTK

theorem hyphenLoop_last (d : List (List Char)) :
    ∀ (parts : List (List Char)) (p : List Char), parts.getLast? = some p → p ≠ [] →
      hyphenLoop d parts ≠ [] ∧
      (hyphenLoop d parts).getLast? = (apply_comprehensive_algorithm p).getLast? := by
  intro parts
  induction parts with
  | nil =>
    intro p h _
    simp at h
  | cons q qs ih =>
    intro p h hne
    cases qs with
    | nil =>
      have hqp : q = p := by
        simpa using h
      subst hqp
      rw [hyphenLoop_single]
      rw [if_neg (by simp [List.isEmpty_iff, hne])]
      exact ⟨acaA_ne_nil q, rfl⟩
    | cons r rs =>
      rw [List.getLast?_cons_cons] at h
      rcases ih p h hne with ⟨hne2, heq⟩
      have hform : hyphenLoop d (q :: r :: rs) =
          ((if q.isEmpty then [] else apply_comprehensive_algorithm q) ++ d) ++
            hyphenLoop d (r :: rs) := by
        simp only [hyphenLoop]
      constructor
      · rw [hform]
        intro habs
        exact hne2 (List.append_eq_nil.mp habs).2
      · rw [hform, getLast?_append_right hne2]
        exact heq

end PortugueseSyllabifierNLTK

namespace PortugueseSyllabifierNLTK

theorem special_patterns_cao_last : ∀ p ∈ special_patterns,
    (("cao").data.isSuffixOf p.1 || ("ção").data.isSuffixOf p.1) = true →
    p.2.getLast? = some (p.1.drop (p.1.length - 3)) := by decide

theorem special_patterns_cao_long : ∀ p ∈ special_patterns,
    (("cao").data.isSuffixOf p.1 || ("ção").data.isSuffixOf p.1) = true →
    5 < p.1.length := by decide

theorem cao_suffix_main {w : List Char} (hlet : ∀ c ∈ w, c ∈ lowercaseLetters)
    (hc : (("cao").data.isSuffixOf (lowerL w) || ("ção").data.isSuffixOf (lowerL w)) = true) :
    (syllabify w).getLast? = some (w.drop (w.length - 3)) ∧
    (w.length - 3 ≤ 2 → syllabify w = [w.take (w.length - 3), w.drop (w.length - 3)]) := by
  have hlw : lowerL w = w := lowerL_fix w hlet
  have hcw : (("cao").data.isSuffixOf w || ("ção").data.isSuffixOf w) = true := by
    rw [← hlw]; exact hc
  have hlen3 : 3 ≤ w.length := by
    have hcc := hcw
    rw [Bool.or_eq_true] at hcc
    rcases hcc with h | h
    · simpa using (List.isSuffixOf_iff_suffix.mp h).length_le
    · simpa using (List.isSuffixOf_iff_suffix.mp h).length_le
  unfold syllabify
  split_ifs with h1 h2
  · exfalso
    simp only [Bool.or_eq_true, List.isEmpty_iff, decide_eq_true_eq] at h1
    rcases h1 with he | he
    · rw [he] at hlen3; simp at hlen3
    · omega
  · exfalso
    rcases h2 with hh | hh
    · exact absurd (hlet '-' hh) (by decide)
    · exact absurd (hlet '\'' hh) (by decide)
  · have hstrip : stripPunct w = w := by
      unfold stripPunct
      rw [List.filter_eq_self]
      intro c hcm
      simp [wordChar_of_lowercase c (hlet c hcm)]
    rw [hstrip]
    cases hl : special_patterns.lookup (lowerL w) with
    | some syls =>
      rw [acaA_lookup_some hl]
      have hmem := lookup_mem hl
      rw [hlw] at hmem
      have hne : w ≠ [] := by
        intro he
        rw [he] at hlen3
        simp at hlen3
      rw [restore_case_of_lower (get_case_lower_of_letters hne hlet)]
      constructor
      · exact special_patterns_cao_last _ hmem hcw
      · intro hle
        exfalso
        have hlong : 5 < w.length := special_patterns_cao_long (w, syls) hmem hcw
        omega
    | none =>
      rw [acaA_lookup_none_cao hl hc]
      constructor
      · exact handle_cao_last hc
      · intro hle
        rw [handle_cao_suffix_branch hc]
        rw [if_pos (by rw [List.length_take]; omega)]

end PortugueseSyllabifierNLTK

/-! ### Detector: properties of recorded hits -/

namespace RRSoundDetector

theorem mem_insertHit {h y : RRSyllable} : ∀ {l : List RRSyllable},
    y ∈ insertHit h l ↔ y = h ∨ y ∈ l := by
  intro l
  induction l with
  | nil => simp [insertHit]
  | cons x xs ih =>
    simp only [insertHit]
    split_ifs
    · rw [List.mem_cons, ih, List.mem_cons]
      tauto
    · rw [List.mem_cons]

theorem mem_foldl_insertHit {y : RRSyllable} :
    ∀ (l acc : List RRSyllable),
      (y ∈ l.foldl (fun acc h => insertHit h acc) acc) ↔ (y ∈ l ∨ y ∈ acc) := by
  intro l
  induction l with
  | nil => intro acc; simp
  | cons x xs ih =>
    intro acc
    simp only [List.foldl_cons]
    rw [ih, mem_insertHit, List.mem_cons]
    tauto

theorem mem_sortHits {y : RRSyllable} {l : List RRSyllable} :
    y ∈ sortHits l ↔ y ∈ l := by
  unfold sortHits
  rw [mem_foldl_insertHit]
  simp

theorem mem_syllableLoop {ot w : List Char} {dd : Bool} :
    ∀ (syls : List (List Char)) (pos : Nat) (h : RRSyllable),
      h ∈ syllableLoop ot w dd syls pos →
      lowerL (sliceL ot h.syllable_start h.syllable_end) = lowerL h.syllable ∧
      h.word = w ∧
      h.pattern_type = (if dd then ("double_rr").data else ("single_r").data) := by
  intro syls
  induction syls with
  | nil =>
    intro pos h hm
    simp [syllableLoop] at hm
  | cons syl rest ih =>
    intro pos h hm
    simp only [syllableLoop] at hm
    rw [List.mem_append] at hm
    rcases hm with hm | hm
    · by_cases h1 : 'r' ∈ lowerL syl
      · rw [if_pos h1] at hm
        by_cases h2 : lowerL (sliceL ot pos (pos + syl.length)) = lowerL syl
        · rw [if_pos h2] at hm
          rcases List.mem_singleton.mp hm with rfl
          exact ⟨h2, rfl, rfl⟩
        · rw [if_neg h2] at hm
          exact absurd hm (List.not_mem_nil h)
      · rw [if_neg h1] at hm
        exact absurd hm (List.not_mem_nil h)
    · exact ih _ h hm

theorem mem_analyze_word_syllables {w ot : List Char} {ws? : Option Nat} {h : RRSyllable}
    (hm : h ∈ analyze_word_syllables w ot ws?) :
    lowerL (sliceL ot h.syllable_start h.syllable_end) = lowerL h.syllable ∧
    h.word = w ∧
    h.pattern_type = (if containsSeq (lowerL w) (("rr").data) then ("double_rr").data
      else ("single_r").data) := by
  cases ws? with
  | some s =>
    simp only [analyze_word_syllables] at hm
    exact mem_syllableLoop _ _ h hm
  | none =>
    simp only [analyze_word_syllables] at hm
    cases hf : strFind (lowerL ot) (lowerL w) 0 with
    | none =>
      rw [hf] at hm
      simp at hm
    | some s =>
      rw [hf] at hm
      exact mem_syllableLoop _ _ h hm

theorem mem_detectLoop {text tl : List Char} :
    ∀ (wsl : List (List Char)) (pos : Nat) (h : RRSyllable),
      h ∈ detectLoop text tl wsl pos →
      lowerL (sliceL text h.syllable_start h.syllable_end) = lowerL h.syllable ∧
      h.pattern_type = (if containsSeq (lowerL h.word) (("rr").data) then ("double_rr").data
        else ("single_r").data) := by
  intro wsl
  induction wsl with
  | nil =>
    intro pos h hm
    simp [detectLoop] at hm
  | cons word ws ih =>
    intro pos h hm
    simp only [detectLoop] at hm
    cases hf : strFind tl (lowerL word) pos with
    | some s =>
      rw [hf] at hm
      rw [List.mem_append] at hm
      rcases hm with hm | hm
      · rcases mem_analyze_word_syllables hm with ⟨hs, hw, hp⟩
        refine ⟨hs, ?_⟩
        rw [hw]
        exact hp
      · exact ih _ h hm
    | none =>
      rw [hf] at hm
      rw [List.mem_append] at hm
      rcases hm with hm | hm
      · rcases mem_analyze_word_syllables hm with ⟨hs, hw, hp⟩
        refine ⟨hs, ?_⟩
        rw [hw]
        exact hp
      · exact ih _ h hm

theorem mem_detect_rr_syllables {text : List Char} {h : RRSyllable}
    (hm : h ∈ detect_rr_syllables text) :
    lowerL (sliceL text h.syllable_start h.syllable_end) = lowerL h.syllable ∧
    h.pattern_type = (if containsSeq (lowerL h.word) (("rr").data) then ("double_rr").data
      else ("single_r").data) := by
  unfold detect_rr_syllables at hm
  rw [mem_sortHits] at hm
  exact mem_detectLoop _ _ h hm

theorem syllableLoop_mismatch {ot w syl : List Char} {dd : Bool} {rest : List (List Char)}
    {pos : Nat} (hr : 'r' ∈ lowerL syl)
    (hmis : lowerL (sliceL ot pos (pos + syl.length)) ≠ lowerL syl) :
    syllableLoop ot w dd (syl :: rest) pos =
      syllableLoop ot w dd rest (pos + syl.length) := by
  simp only [syllableLoop]
  rw [if_pos hr, if_neg hmis]
  simp

end RRSoundDetector

/-! ### The claims -/

/-- Claim C1 (amended): for every input word made of lowercase letters in
which no gu/qu-marking substitution of the preprocessor can fire,
concatenating the elements of `syllabify word` in order reproduces the
original word exactly, character for character.  (For words with uppercase
letters the concatenation yields the lowercased word instead, so the
original claim's "case included" fails; see the counterexample.) -/
theorem claim_C1 {w : List Char} (hlet : ∀ c ∈ w, c ∈ lowercaseLetters)
    (hnt : noTriggerB w = true) :
    joinL (PortugueseSyllabifierNLTK.syllabify w) = w :=
  PortugueseSyllabifierNLTK.syllabify_roundtrip hlet hnt

theorem claim_C1_witness :
    (∀ c ∈ ("casa").data, c ∈ lowercaseLetters) ∧ noTriggerB ("casa").data = true ∧
    joinL (PortugueseSyllabifierNLTK.syllabify ("casa").data) = ("casa").data :=
  ⟨by decide, by decide, claim_C1 (by decide) (by decide)⟩

theorem claim_C1_cex :
    joinL (PortugueseSyllabifierNLTK.syllabify ("AB").data) = ("ab").data ∧
    ("ab").data ≠ ("AB").data := by decide

/-- Claim C2: for every word whose lowercase form is a key of the exception
lexicon, `syllabify` returns exactly the stored syllable list for that key,
with case restoration applied afterward, regardless of what the general
rules would produce. -/
theorem claim_C2 {w : List Char} {syls : List (List Char)}
    (h : PortugueseSyllabifierNLTK.special_patterns.lookup (lowerL w) = some syls) :
    PortugueseSyllabifierNLTK.syllabify w = PortugueseSyllabifierNLTK.restore_case w syls :=
  PortugueseSyllabifierNLTK.syllabify_exception h

theorem claim_C2_witness :
    PortugueseSyllabifierNLTK.special_patterns.lookup (lowerL ("aqui").data) =
      some [("a").data, ("qui").data] ∧
    PortugueseSyllabifierNLTK.syllabify ("aqui").data =
      PortugueseSyllabifierNLTK.restore_case ("aqui").data [("a").data, ("qui").data] :=
  ⟨by decide, claim_C2 (by decide)⟩

/-- Claim C3: refuted (code bug).  The stored lexicon list is mutated by
`restore_case`'s in-place capitalization: starting from the initial table,
`syllabify('estrela')` returns es-tre-la, but after one `syllabify('Estrela')`
call the same input returns Es-tre-la — the stored entry was overwritten, so
the result of a call depends on which calls preceded it. -/
theorem claim_C3 :
    (PortugueseSyllabifierNLTK.syllabify_st PortugueseSyllabifierNLTK.special_patterns
        ("estrela").data).1 = [("es").data, ("tre").data, ("la").data] ∧
    (PortugueseSyllabifierNLTK.syllabify_st
        (PortugueseSyllabifierNLTK.syllabify_st PortugueseSyllabifierNLTK.special_patterns
          ("Estrela").data).2
        ("estrela").data).1 = [("Es").data, ("tre").data, ("la").data] ∧
    [("es").data, ("tre").data, ("la").data] ≠ [("Es").data, ("tre").data, ("la").data] := by
  decide

/-- Claim C4 (amended): for every word made of letters that is not an
exception-lexicon key and in which no gu/qu-marking substitution can fire,
no pair of adjacent characters forming a listed diphthong ever receives a
syllable boundary between its two vowels.  (Exception-lexicon entries are
returned verbatim and can split a diphthong; see the counterexample.) -/
theorem claim_C4 {w : List Char} (hlet : ∀ c ∈ w, isLetterChar c = true)
    (hnt : noTriggerB w = true)
    (hl : PortugueseSyllabifierNLTK.special_patterns.lookup (lowerL w) = none) :
    ∀ i, diphAt w i → (i + 1) ∉ innerOffsets 0 (PortugueseSyllabifierNLTK.syllabify w) :=
  PortugueseSyllabifierNLTK.syllabify_no_diph_split hlet hnt hl

theorem claim_C4_witness :
    (∀ c ∈ ("peixe").data, isLetterChar c = true) ∧
    noTriggerB ("peixe").data = true ∧
    PortugueseSyllabifierNLTK.special_patterns.lookup (lowerL ("peixe").data) = none ∧
    diphAt ("peixe").data 1 ∧
    (2 : Nat) ∉ innerOffsets 0 (PortugueseSyllabifierNLTK.syllabify ("peixe").data) :=
  ⟨by decide, by decide, by decide, by decide,
    claim_C4 (by decide) (by decide) (by decide) 1 (by decide)⟩

theorem claim_C4_cex :
    diphAt ("reconstruir").data 8 ∧
    (9 : Nat) ∈ innerOffsets 0 (PortugueseSyllabifierNLTK.syllabify ("reconstruir").data) := by
  decide

/-- Claim C5 (amended): for every word made of lowercase letters whose
lowercase form ends in the exact sequence `ção` or `cao` — the code's test,
which is not diacritic-insensitive — the last element of `syllabify word`
is exactly the word's final 3 characters, and when the remaining base has
length at most 2 the result is precisely base followed by ending.  (A word
like cão, which qualifies only under the diacritic-insensitive reading,
gets no such treatment; see the counterexample.) -/
theorem claim_C5 {w : List Char} (hlet : ∀ c ∈ w, c ∈ lowercaseLetters)
    (hc : (("cao").data.isSuffixOf (lowerL w) || ("ção").data.isSuffixOf (lowerL w)) = true) :
    (PortugueseSyllabifierNLTK.syllabify w).getLast? = some (w.drop (w.length - 3)) ∧
    (w.length - 3 ≤ 2 →
      PortugueseSyllabifierNLTK.syllabify w =
        [w.take (w.length - 3), w.drop (w.length - 3)]) :=
  PortugueseSyllabifierNLTK.cao_suffix_main hlet hc

theorem claim_C5_witness :
    (∀ c ∈ ("nacao").data, c ∈ lowercaseLetters) ∧
    ((("cao").data.isSuffixOf (lowerL ("nacao").data) ||
      ("ção").data.isSuffixOf (lowerL ("nacao").data)) = true) ∧
    (PortugueseSyllabifierNLTK.syllabify ("nacao").data).getLast? =
      some (("nacao").data.drop (("nacao").data.length - 3)) ∧
    PortugueseSyllabifierNLTK.syllabify ("nacao").data =
      [("nacao").data.take (("nacao").data.length - 3),
       ("nacao").data.drop (("nacao").data.length - 3)] :=
  ⟨by decide, by decide, (claim_C5 (by decide) (by decide)).1,
    (claim_C5 (by decide) (by decide)).2 (by decide)⟩

theorem claim_C5_cex :
    endsCaoInsensitive ("cão").data = true ∧
    (PortugueseSyllabifierNLTK.syllabify ("cão").data).getLast? ≠
      some (("cão").data.drop (("cão").data.length - 3)) := by decide

/-- Claim C6: every hit recorded by `analyze_text` satisfies the slice
invariant — the case-insensitive slice of the original text at the hit's
start/end offsets equals the hit's syllable text — and whenever a syllable's
computed offsets fail that comparison, the loop records nothing for it and
continues with the remaining syllables. -/
theorem claim_C6 :
    (∀ (text : List Char) (h : RRSoundDetector.RRSyllable),
      h ∈ (RRSoundDetector.analyze_text text).patterns →
      lowerL (sliceL text h.syllable_start h.syllable_end) = lowerL h.syllable) ∧
    (∀ (ot w syl : List Char) (dd : Bool) (rest : List (List Char)) (pos : Nat),
      'r' ∈ lowerL syl →
      lowerL (sliceL ot pos (pos + syl.length)) ≠ lowerL syl →
      RRSoundDetector.syllableLoop ot w dd (syl :: rest) pos =
        RRSoundDetector.syllableLoop ot w dd rest (pos + syl.length)) := by
  constructor
  · intro text h hm
    have hm' : h ∈ RRSoundDetector.detect_rr_syllables text := hm
    exact (RRSoundDetector.mem_detect_rr_syllables hm').1
  · intro ot w syl dd rest pos hr hmis
    exact RRSoundDetector.syllableLoop_mismatch hr hmis

theorem claim_C6_witness :
    (({ word := ("carro").data, syllable := ("car").data, syllable_start := 0, syllable_end := 3,
        difficulty := ("hard").data, pronunciation := ("Strong trilled R sound").data,
        example_word := ("carro").data, pattern_type := ("double_rr").data } :
        RRSoundDetector.RRSyllable) ∈ (RRSoundDetector.analyze_text ("carro").data).patterns) ∧
    lowerL (sliceL ("carro").data 0 3) = lowerL ("car").data ∧
    ('r' ∈ lowerL ("ra").data) ∧
    lowerL (sliceL ("xa").data 0 (0 + ("ra").data.length)) ≠ lowerL ("ra").data ∧
    RRSoundDetector.syllableLoop ("xa").data ("ra").data false [("ra").data] 0 =
      RRSoundDetector.syllableLoop ("xa").data ("ra").data false [] (0 + ("ra").data.length) := by
  refine ⟨by decide, ?_, by decide, by decide, ?_⟩
  · exact claim_C6.1 ("carro").data
      { word := ("carro").data, syllable := ("car").data, syllable_start := 0, syllable_end := 3,
        difficulty := ("hard").data, pronunciation := ("Strong trilled R sound").data,
        example_word := ("carro").data, pattern_type := ("double_rr").data } (by decide)
  · exact claim_C6.2 ("xa").data ("ra").data ("ra").data false [] 0 (by decide) (by decide)

/-- Claim C7: a hit recorded by `analyze_text` has pattern type double_rr
exactly when its source word contains the substring rr case-insensitively
anywhere, and every hit's pattern type is double_rr or single_r. -/
theorem claim_C7 :
    ∀ (text : List Char) (h : RRSoundDetector.RRSyllable),
      h ∈ (RRSoundDetector.analyze_text text).patterns →
      (h.pattern_type = ("double_rr").data ↔
        containsSeq (lowerL h.word) (("rr").data) = true) ∧
      (h.pattern_type = ("double_rr").data ∨ h.pattern_type = ("single_r").data) := by
  intro text h hm
  have hm' : h ∈ RRSoundDetector.detect_rr_syllables text := hm
  have hp := (RRSoundDetector.mem_detect_rr_syllables hm').2
  by_cases hb : containsSeq (lowerL h.word) (("rr").data) = true
  · rw [if_pos hb] at hp
    exact ⟨⟨fun _ => hb, fun _ => hp⟩, Or.inl hp⟩
  · rw [if_neg hb] at hp
    refine ⟨⟨fun hA => absurd (hA.symm.trans hp) (by decide), fun hcb => absurd hcb hb⟩,
      Or.inr hp⟩

theorem claim_C7_witness :
    (({ word := ("rato").data, syllable := ("ra").data, syllable_start := 0, syllable_end := 2,
        difficulty := ("hard").data, pronunciation := ("Trilled R sound").data,
        example_word := ("rato").data, pattern_type := ("single_r").data } :
        RRSoundDetector.RRSyllable) ∈ (RRSoundDetector.analyze_text ("rato").data).patterns) ∧
    ((("single_r").data : List Char) = ("double_rr").data ↔
      containsSeq (lowerL ("rato").data) (("rr").data) = true) ∧
    ((("single_r").data : List Char) = ("double_rr").data ∨
      (("single_r").data : List Char) = ("single_r").data) :=
  ⟨by decide,
    (claim_C7 ("rato").data
      { word := ("rato").data, syllable := ("ra").data, syllable_start := 0, syllable_end := 2,
        difficulty := ("hard").data, pronunciation := ("Trilled R sound").data,
        example_word := ("rato").data, pattern_type := ("single_r").data } (by decide)).1,
    (claim_C7 ("rato").data
      { word := ("rato").data, syllable := ("ra").data, syllable_start := 0, syllable_end := 2,
        difficulty := ("hard").data, pronunciation := ("Trilled R sound").data,
        example_word := ("rato").data, pattern_type := ("single_r").data } (by decide)).2⟩

/-- Claim C8 (amended): for a run of exactly three consonants between
consecutive vowels, the engine places the boundary immediately after the
first consonant — also for the listed clusters str and scr and for any
unlisted run — except for the listed clusters spr and spl, which are split
after their second consonant. -/
theorem claim_C8 : ∀ (cs : List Char) (s : Nat), cs.length = 3 →
    PortugueseSyllabifierNLTK.distribute_consonants cs s =
      (if lowerL cs = ("spr").data ∨ lowerL cs = ("spl").data then [s + 2] else [s + 1]) := by
  intro cs s h3
  unfold PortugueseSyllabifierNLTK.distribute_consonants
  rw [if_neg (by omega), if_pos h3]
  by_cases hm : lowerL cs ∈ PortugueseSyllabifierNLTK.complex_clusters
  · rw [if_pos hm]
    simp only [PortugueseSyllabifierNLTK.complex_clusters, List.mem_cons,
      List.not_mem_nil, or_false] at hm
    rcases hm with he | he | he | he
    · rw [he, if_pos rfl, if_neg (by decide)]
    · rw [he, if_neg (by decide), if_neg (by decide), if_pos (by decide)]
    · rw [he, if_neg (by decide), if_pos rfl, if_neg (by decide)]
    · rw [he, if_neg (by decide), if_neg (by decide), if_pos (by decide)]
  · rw [if_neg hm]
    rw [if_neg (by
      rintro (he | he)
      · exact hm (by rw [he]; decide)
      · exact hm (by rw [he]; decide))]

theorem claim_C8_witness :
    ("str").data.length = 3 ∧
    PortugueseSyllabifierNLTK.distribute_consonants ("str").data 1 =
      (if lowerL ("str").data = ("spr").data ∨ lowerL ("str").data = ("spl").data
       then [1 + 2] else [1 + 1]) :=
  ⟨by decide, claim_C8 ("str").data 1 (by decide)⟩

theorem claim_C8_cex :
    PortugueseSyllabifierNLTK.distribute_consonants ("spr").data 1 = [3] ∧
    ([3] : List Nat) ≠ [2] := by decide

/-- Claim C9 (amended): when consonants follow the word's last vowel, a
single trailing consonant attaches to the preceding syllable (no boundary
is added); with two trailing consonants forming a recognized inseparable
cluster or digraph nothing is added either; with two that do not, or with
three or more, one boundary is added before the word's last character, so
only the final consonant — not the whole trailing run — is split off. -/
theorem claim_C9 : ∀ (w : List Char) (points vps : List Nat), vps ≠ [] →
    maxList vps < w.length - 1 →
    (((w.drop (maxList vps + 1)).length = 1 →
       PortugueseSyllabifierNLTK.handle_final_consonants w points vps = dedupSort points) ∧
     ((w.drop (maxList vps + 1)).length = 2 →
       (lowerL (w.drop (maxList vps + 1)) ∈
          PortugueseSyllabifierNLTK.imperfect_clusters ∨
        lowerL (w.drop (maxList vps + 1)) ∈
          PortugueseSyllabifierNLTK.digraphs) →
       PortugueseSyllabifierNLTK.handle_final_consonants w points vps = dedupSort points) ∧
     ((w.drop (maxList vps + 1)).length = 2 →
       lowerL (w.drop (maxList vps + 1)) ∉
         PortugueseSyllabifierNLTK.imperfect_clusters →
       lowerL (w.drop (maxList vps + 1)) ∉
         PortugueseSyllabifierNLTK.digraphs →
       PortugueseSyllabifierNLTK.handle_final_consonants w points vps =
         dedupSort (points ++ [w.length - 1])) ∧
     (3 ≤ (w.drop (maxList vps + 1)).length →
       PortugueseSyllabifierNLTK.handle_final_consonants w points vps =
         dedupSort (points ++ [w.length - 1]))) := by
  intro w points vps hne hlv
  rcases vps with _ | ⟨v, vs⟩
  · exact absurd rfl hne
  · simp only [PortugueseSyllabifierNLTK.handle_final_consonants]
    refine ⟨?_, ?_, ?_, ?_⟩
    · intro h1
      rw [if_pos hlv, if_pos h1]
    · intro h2 hsep
      rw [if_pos hlv, if_neg (by omega), if_pos h2, if_pos hsep]
    · intro h2 hi hd
      rw [if_pos hlv, if_neg (by omega), if_pos h2,
        if_neg (by rintro (h | h); exacts [hi h, hd h])]
    · intro h3
      rw [if_pos hlv, if_neg (by omega), if_neg (by omega)]

theorem claim_C9_witness :
    ([0, 2] : List Nat) ≠ [] ∧
    maxList [0, 2] < ("aberst").data.length - 1 ∧
    3 ≤ (("aberst").data.drop (maxList [0, 2] + 1)).length ∧
    PortugueseSyllabifierNLTK.handle_final_consonants ("aberst").data [1] [0, 2] =
      dedupSort ([1] ++ [("aberst").data.length - 1]) :=
  ⟨by decide, by decide, by decide,
    (claim_C9 ("aberst").data [1] [0, 2] (by decide) (by decide)).2.2.2 (by decide)⟩

theorem claim_C9_cex :
    PortugueseSyllabifierNLTK.syllabify ("aberst").data =
      [("a").data, ("bers").data, ("t").data] ∧
    ("t").data ≠ ("rst").data := by decide

/-- Claim C10: for every input text, the original_text field of the
`analyze_text` result is the input text itself, unchanged. -/
theorem claim_C10 : ∀ (text : List Char),
    (RRSoundDetector.analyze_text text).original_text = text :=
  fun _ => rfl
